import Mathlib

/-!
Verification of the hospital-registry resolution pipeline
(`scripts/merge_data.py`, class `GeocodingPipeline`).

The Python program is shallowly embedded:

* Python strings are Lean `String`s.  `str.upper` is modelled per
  character: ASCII letters are uppercased, and every Unicode character
  whose uppercasing contains an ASCII alphanumeric (`ß → SS`, `ı → I`,
  `ſ → S`, `ŉ`, `ǰ`, `ẖ`, `ẗ`, `ẘ`, `ẙ`, `ẚ`, and the Latin ligatures
  `ﬀ ﬁ ﬂ ﬃ ﬄ ﬅ ﬆ`) is expanded accordingly; this 17-character list is
  exhaustive over Unicode, and every remaining character uppercases (in
  CPython) to characters outside `[A-Z0-9]`, so after the program's
  `[^A-Z0-9]` strip the model agrees with CPython on every string.
  `str.lower` is modelled on the ASCII range.
* The registry `self.data` (a Python 3.7+ insertion-ordered dict) is an
  association list `List (String × Rec)`; `d[k] = v` keeps the position of
  an existing key and appends new keys, `del` keeps the order of the rest.
* Floats (`lat`/`lng`, similarity scores) are rationals; `round(x, 5)` is
  rounding of `x * 10^5` to the nearest integer (no claim in this
  development touches an exact half-way tie, where CPython's
  bankers rounding of binary floats could differ).
* Network I/O (Google geocode / find-place / place-details, the BigBasket
  autocomplete) is an oracle `GeoEnv` mapping each outgoing query to the
  response the remote service returns; an exception raised by a call and a
  non-`OK` status are distinguished, exactly as the `try`-blocks of the
  source distinguish them.
* `difflib.SequenceMatcher(None, a, b).ratio()` (Python standard library,
  not part of this repository) is an explicit parameter
  `ratio : String → String → ℚ` of the text-deduplication pass; no claim
  depends on its values, only on its determinism.
-/

namespace MergeData

/-! ## ASCII / Python string primitives -/
/-- Python `str.upper()` on one character (uppercasing is
context-independent, so `s.upper()` is the concatenation of the
per-character uppercasings).  ASCII letters are uppercased; the 17
Unicode characters whose CPython uppercasing contains an ASCII
alphanumeric are expanded exactly; every other character is kept as is,
which after the `[^A-Z0-9]` strip of `generate_unique_id` agrees with
CPython (their real uppercasings contain no `[A-Z0-9]` character — the
17-character list is exhaustive over all of Unicode). -/
def pyUpperChars (c : Char) : List Char :=
  if 'a' ≤ c ∧ c ≤ 'z' then [Char.ofNat (c.toNat - 32)]
  else if c = 'ß' then ['S', 'S']
  else if c = 'ı' then ['I']
  else if c = 'ŉ' then [Char.ofNat 0x2BC, 'N']
  else if c = 'ſ' then ['S']
  else if c = 'ǰ' then ['J', Char.ofNat 0x30C]
  else if c = 'ẖ' then ['H', Char.ofNat 0x331]
  else if c = 'ẗ' then ['T', Char.ofNat 0x308]
  else if c = 'ẘ' then ['W', Char.ofNat 0x30A]
  else if c = 'ẙ' then ['Y', Char.ofNat 0x30A]
  else if c = 'ẚ' then ['A', Char.ofNat 0x2BE]
  else if c = 'ﬀ' then ['F', 'F']
  else if c = 'ﬁ' then ['F', 'I']
  else if c = 'ﬂ' then ['F', 'L']
  else if c = 'ﬃ' then ['F', 'F', 'I']
  else if c = 'ﬄ' then ['F', 'F', 'L']
  else if c = 'ﬅ' then ['S', 'T']
  else if c = 'ﬆ' then ['S', 'T']
  else [c]


/-- Python `str.lower`, modelled on the ASCII letters. -/
def pyLowerChar (c : Char) : Char :=
  if 'A' ≤ c ∧ c ≤ 'Z' then Char.ofNat (c.toNat + 32) else c

/-- Is `c` kept by the regex `[^A-Z0-9]` substitution, i.e. `c ∈ [A-Z0-9]`? -/
def isAZ09 (c : Char) : Bool :=
  decide (('A' ≤ c ∧ c ≤ 'Z') ∨ ('0' ≤ c ∧ c ≤ '9'))

/-- Is `c` kept by the regex `[^a-z0-9]` substitution, i.e. `c ∈ [a-z0-9]`? -/
def isaz09 (c : Char) : Bool :=
  decide (('a' ≤ c ∧ c ≤ 'z') ∨ ('0' ≤ c ∧ c ≤ '9'))

/-- `re.sub(r"[^A-Z0-9]", "", s.upper())` on the character list. -/
def cleanUpperList (l : List Char) : List Char :=
  (l.flatMap pyUpperChars).filter isAZ09

/-- `re.sub(r"[^A-Z0-9]", "", str(s).upper())`. -/
def cleanUpper (s : String) : String :=
  String.mk (cleanUpperList s.data)

/-- `re.sub(r"[^a-z0-9]", "", s)`. -/
def cleanLowerKeep (s : String) : String :=
  String.mk (s.data.filter isaz09)

/-- Python `str.strip()` (default whitespace strip on both ends). -/
def pyStrip (s : String) : String :=
  String.mk (((s.data.dropWhile Char.isWhitespace).reverse.dropWhile
    Char.isWhitespace).reverse)

/-- Python `str.lower()` (ASCII model). -/
def pyLower (s : String) : String :=
  String.mk (s.data.map pyLowerChar)

/-- Python `str.isdigit()` (ASCII model; on `""` it is `False`). -/
def pyIsDigit (s : String) : Bool :=
  !s.data.isEmpty && s.data.all (fun c => decide ('0' ≤ c ∧ c ≤ '9'))

/-- Worker for `removeOccs`; the fuel argument (one unit per input
character) only makes the recursion structural, it never runs out when
`pat` is non-empty and `fuel = s.length`. -/
def removeOccsAux (pat : List Char) : Nat → List Char → List Char
  | 0, s => s
  | _ + 1, [] => []
  | fuel + 1, c :: rest =>
    if pat.isPrefixOf (c :: rest) then
      removeOccsAux pat fuel ((c :: rest).drop pat.length)
    else
      c :: removeOccsAux pat fuel rest

/-- Python `s.replace(pat, "")`: delete every non-overlapping occurrence of
`pat`, scanning left to right (`s.replace("", "")` is `s`). -/
def removeOccs (pat : List Char) (s : List Char) : List Char :=
  if pat.isEmpty then s else removeOccsAux pat s.length s

/-! ## Identity key generation (`generate_unique_id`) -/
/-- `GeocodingPipeline.generate_unique_id(name, pin, city)`:
strip non-alphanumerics from the uppercased name; suffix is the stripped
pin unless it is missing, shorter than 6 characters, or the placeholder
`"nan"`, in which case the alphanumeric-cleaned uppercased city is used. -/
def generate_unique_id (name pin city : String) : String :=
  let clean_name := cleanUpper name
  let clean_pin := pyStrip pin
  let clean_suffix :=
    if clean_pin = "" ∨ clean_pin.length < 6 ∨ pyLower clean_pin = "nan" then
      cleanUpper city
    else clean_pin
  clean_name ++ "_" ++ clean_suffix

/-! ## The edit relation of claim C8 -/
/-- `c` is an ASCII letter. -/
def asciiLetter (c : Char) : Prop :=
  ('A' ≤ c ∧ c ≤ 'Z') ∨ ('a' ≤ c ∧ c ≤ 'z')

/-- `c` lies in `[A-Za-z0-9]` (the claim's alphanumeric class). -/
def claimAlnum (c : Char) : Prop :=
  ('A' ≤ c ∧ c ≤ 'Z') ∨ ('a' ≤ c ∧ c ≤ 'z') ∨ ('0' ≤ c ∧ c ≤ '9')

instance (c : Char) : Decidable (asciiLetter c) := by
  unfold asciiLetter; infer_instance

instance (c : Char) : Decidable (claimAlnum c) := by
  unfold claimAlnum; infer_instance

/-- One primitive edit exactly as claim C8 words it: change the case of
one ASCII letter, or insert or delete one character outside
`[A-Za-z0-9]` (any such character — this is the relation the claim
quantifies over, and it is refuted by `'ß'`). -/
inductive NameEdit : List Char → List Char → Prop
  | caseChange (pre post : List Char) (c c' : Char) :
      asciiLetter c → asciiLetter c' → pyUpperChars c = pyUpperChars c' →
      NameEdit (pre ++ c :: post) (pre ++ c' :: post)
  | insertPunct (pre post : List Char) (c : Char) :
      ¬ claimAlnum c → NameEdit (pre ++ post) (pre ++ c :: post)
  | deletePunct (pre post : List Char) (c : Char) :
      ¬ claimAlnum c → NameEdit (pre ++ c :: post) (pre ++ post)

/-- `c` contributes nothing to the cleaned key: every character of its
uppercasing lies outside `[A-Z0-9]`.  All ASCII characters outside
`[A-Za-z0-9]` qualify; `'ß'`, `'ı'`, `'ſ'` and the other 14 special
characters do not. -/
def keyNeutral (c : Char) : Bool :=
  (pyUpperChars c).all (fun u => !isAZ09 u)

/-- One primitive edit of the amended claim C8: change the case of one
ASCII letter, or insert or delete one character outside `[A-Za-z0-9]`
whose uppercasing contributes nothing to the key alphabet. -/
inductive NameEditSafe : List Char → List Char → Prop
  | caseChange (pre post : List Char) (c c' : Char) :
      asciiLetter c → asciiLetter c' → pyUpperChars c = pyUpperChars c' →
      NameEditSafe (pre ++ c :: post) (pre ++ c' :: post)
  | insertPunct (pre post : List Char) (c : Char) :
      ¬ claimAlnum c → keyNeutral c = true →
      NameEditSafe (pre ++ post) (pre ++ c :: post)
  | deletePunct (pre post : List Char) (c : Char) :
      ¬ claimAlnum c → keyNeutral c = true →
      NameEditSafe (pre ++ c :: post) (pre ++ post)

/-! ## Data model

A registry record (one value of the `self.data` dict).  The Python dicts
are modelled with a fixed field set: every record the pipeline itself
creates has exactly these keys (`place_id`, attached to some intermediate
geocoding *results*, is never copied into a registry record by `run`).
`_needs_update` is `needsUpdate`. -/
structure Rec where
  name : String
  address : String
  city : String
  state : String
  pincode : String
  excluded_by : List String
  lat : ℚ
  lng : ℚ
  accuracy : String
  needsUpdate : Bool
deriving DecidableEq

/-- The registry `self.data`: an insertion-ordered dict. -/
abbrev Reg := List (String × Rec)

def keysOf (st : Reg) : List String := st.map Prod.fst

def lookup? (st : Reg) (k : String) : Option Rec :=
  (st.find? (fun p => p.1 == k)).map Prod.snd

/-- Default used where Python would raise `KeyError`; never reached on the
states the theorems quantify over. -/
def defaultRec : Rec := ⟨"", "", "", "", "", [], 0, 0, "Pending", false⟩

def lookupD (st : Reg) (k : String) : Rec := (lookup? st k).getD defaultRec

/-- `d[k] = v` on an insertion-ordered dict: overwrite in place if the key
exists, else append. -/
def dictSet (st : Reg) (k : String) (v : Rec) : Reg :=
  if st.any (fun p => p.1 == k) then
    st.map (fun p => if p.1 == k then (k, v) else p)
  else st ++ [(k, v)]

/-! ## Source ingestion (`merge_sources` / `_process_source_record`) -/
/-- One raw source record.  Fields hold the values of `"Hospital Name"`,
`"Address"`, `"City"`, `"State"`, `"Pin Code"` after the code's
falsy-defaulting extraction (`record.get(k, "") if record.get(k) else ""`),
so an absent or `None` field is `""`. -/
structure SrcRec where
  hospitalName : String
  address : String
  city : String
  state : String
  pinCode : String
deriving DecidableEq

/-- The skip conditions of `_process_source_record` (empty name, header
artifact rows). -/
def skipRecord (r : SrcRec) : Bool :=
  pyStrip r.hospitalName == "" || pyStrip r.hospitalName == "Hospital Name"
    || pyStrip r.pinCode == "Pincode"

/-- `if company not in existing["excluded_by"]: append(company)`. -/
def appendCompany (e : Rec) (company : String) : Rec :=
  if company ∈ e.excluded_by then e
  else { e with excluded_by := e.excluded_by ++ [company] }

/-- `GeocodingPipeline._process_source_record(record, company)`; returns
the uid it reports to the caller (`None` on skip) and the new registry. -/
def process_source_record (r : SrcRec) (company : String) (st : Reg) :
    Option String × Reg :=
  if skipRecord r then (none, st)
  else
    let uid := generate_unique_id r.hospitalName r.pinCode r.city
    match lookup? st uid with
    | some existing =>
      if existing.accuracy = "HIGH" then
        (some uid, dictSet st uid (appendCompany existing company))
      else
        let old_addr := pyStrip existing.address
        let new_addr := pyStrip r.address
        let e1 :=
          if old_addr ≠ new_addr ∧ 5 < new_addr.length then
            { existing with
                address := r.address,
                city := r.city,
                state := r.state,
                pincode := r.pinCode,
                needsUpdate := true }
          else existing
        (some uid, dictSet st uid (appendCompany e1 company))
    | none =>
      (some uid, dictSet st uid
        ⟨r.hospitalName, r.address, r.city, r.state, r.pinCode,
          [company], 0, 0, "Pending", true⟩)

/-- The uid `_process_source_record` reports, as a pure function of the
record (it does not depend on the registry). -/
def recordUid (r : SrcRec) : Option String :=
  if skipRecord r then none
  else some (generate_unique_id r.hospitalName r.pinCode r.city)

/-- One source file; `records = none` models a file `json.load` failed on
(the `except` branch logs and skips it). -/
structure SourceFile where
  company : String
  records : Option (List SrcRec)

/-- Folding one record into `(registry, active uid list)`; the Python
`active_source_uids.add(uid)` under `if uid:` (a generated uid is never
the empty string, so truthiness is `some`-ness). -/
def ingestRecord (c : String) (s : Reg × List String) (r : SrcRec) :
    Reg × List String :=
  match process_source_record r c s.1 with
  | (some uid, st2) => (st2, s.2 ++ [uid])
  | (none, st2) => (st2, s.2)

def ingestFile (s : Reg × List String) (f : SourceFile) : Reg × List String :=
  match f.records with
  | none => s
  | some recs => recs.foldl (ingestRecord f.company) s

/-- `GeocodingPipeline.merge_sources()`, with the current directory's
source files passed explicitly.  With no source files at all the function
returns before the pruning step. -/
def merge_sources (files : List SourceFile) (st : Reg) : Reg :=
  if files.isEmpty then st
  else
    let s := files.foldl ingestFile (st, [])
    s.1.filter (fun p => s.2.contains p.1)

/-- The set of uids produced by the non-skipped records of the readable
source files. -/
def activeUids : List SourceFile → List String
  | [] => []
  | f :: fs =>
    (match f.records with
     | none => []
     | some recs => recs.filterMap recordUid) ++ activeUids fs

/-! ## Deduplication helpers -/
/-- Stable insertion step: `x` goes after every already-placed `y` with
`le y x` (so later elements never overtake earlier equal ones). -/
def insertStable {α : Type _} (le : α → α → Bool) (x : α) : List α → List α
  | [] => [x]
  | y :: l => if le y x then y :: insertStable le x l else x :: y :: l

/-- The stable sort by the total preorder `le`.  A stable sort is uniquely
determined by the order relation, so this structurally-recursive insertion
sort computes exactly what CPython's stable `list.sort` computes. -/
def stableSort {α : Type _} (le : α → α → Bool) (l : List α) : List α :=
  l.foldl (fun acc x => insertStable le x acc) []

/-- Python `sub in s` for strings: substring test. -/
def containsSub (sub l : List Char) : Bool :=
  l.tails.any (fun t => sub.isPrefixOf t)

/-- The noise words `_normalize_for_match` strips, in source order (the
order matters: `"hospital"` is removed before `"hospitals"` is tried). -/
def noiseWords : List String :=
  ["hospital", "hospitals", "centre", "center", "clinic", "nursing",
   "home", "multispeciality", "multi", "speciality", "specialty",
   "superspeciality", "super", "health", "care", "healthcare", "medicare",
   "trauma", "maternity", "research", "institute", "memorial", "general",
   "diagnostic", "diagnostics", "foundation", "trust", "pvtltd", "pvt",
   "ltd"]

/-- `GeocodingPipeline._normalize_for_match(text)`. -/
def normalize_for_match (text : String) : String :=
  if text = "" then ""
  else
    String.mk
      ((noiseWords.foldl (fun l w => removeOccs w.data l)
        (pyLower text).data).filter isaz09)

/-- `GeocodingPipeline._calculate_similarity(name_a, name_b)`.
`ratio` is `difflib.SequenceMatcher(None, ·, ·).ratio()` (standard
library), passed as an oracle; no claim depends on its values. -/
def calculate_similarity (ratio : String → String → ℚ)
    (name_a name_b : String) : ℚ :=
  let norm_a := normalize_for_match name_a
  let norm_b := normalize_for_match name_b
  if norm_a = "" ∨ norm_b = "" then 0
  else if norm_a.length < 5 ∨ norm_b.length < 5 then
    (if norm_a = norm_b then 1 else 0)
  else
    let containment_bonus : ℚ :=
      if 4 < norm_a.length ∧ 4 < norm_b.length then
        (if containsSub norm_a.data norm_b.data
            ∨ containsSub norm_b.data norm_a.data then 2/10 else 0)
      else 0
    ratio norm_a norm_b + containment_bonus

/-- `list(set(a + b))`.  CPython's set iteration order is hash-dependent
and unspecified; this model keeps first occurrences.  No claim depends on
the order, only on the underlying set. -/
def pySetList (l : List String) : List String :=
  l.foldl (fun acc x => if x ∈ acc then acc else acc ++ [x]) []

/-- Step 1 of `_merge_record_data`: union the `excluded_by` lists. -/
def mergeInsurers (p s : Rec) : Rec :=
  { p with excluded_by := pySetList (p.excluded_by ++ s.excluded_by) }

/-- Step 2: keep the address whose noise-stripped normalization is longer
(strictly longer on the secondary side). -/
def mergeAddress (p s : Rec) : Rec :=
  if (normalize_for_match (pyStrip p.address)).length
      < (normalize_for_match (pyStrip s.address)).length then
    { p with address := s.address }
  else p

/-- Step 3: backfill `city` when the primary's is missing (falsy). -/
def backfillCity (p s : Rec) : Rec :=
  if p.city = "" ∧ s.city ≠ "" then { p with city := s.city } else p

def backfillState (p s : Rec) : Rec :=
  if p.state = "" ∧ s.state ≠ "" then { p with state := s.state } else p

def backfillPincode (p s : Rec) : Rec :=
  if p.pincode = "" ∧ s.pincode ≠ "" then { p with pincode := s.pincode }
  else p

/-- `GeocodingPipeline._merge_record_data(primary, secondary)` (the
secondary record is read-only in the source; the primary is mutated). -/
def merge_record_data (p s : Rec) : Rec :=
  backfillPincode (backfillState (backfillCity
    (mergeAddress (mergeInsurers p s) s) s) s) s

/-! ## Record ranking and coordinate keys -/
/-- The `accuracy_map` dict of `_get_record_rank_score` (`.get(·, 0)`). -/
def accuracy_map (a : String) : Nat :=
  if a = "HIGH" then 3
  else if a = "MEDIUM" then 2
  else if a = "LOW" then 1
  else 0

/-- `GeocodingPipeline._get_record_rank_score(uid)`:
`(accuracy score, name length)` of the record at `uid`. -/
def get_record_rank_score (st : Reg) (uid : String) : Nat × Nat :=
  let r := lookupD st uid
  (accuracy_map r.accuracy, r.name.length)

/-- `rankGe x y` iff `y ≤ x` lexicographically: the sort order of
`uids.sort(key=_get_record_rank_score, reverse=True)` (stable
descending). -/
def rankGe (x y : Nat × Nat) : Bool :=
  decide (y.1 < x.1 ∨ (y.1 = x.1 ∧ y.2 ≤ x.2))

/-- `round(q, 5)` scaled to an integer key: the integer nearest to
`q * 10^5` (half rounded up), computed on `num`/`den` with integer
division so the kernel can evaluate it.  No claim exercises an exact
half-way tie, where CPython's bankers rounding of binary floats could
differ from half-up rounding of rationals. -/
def round5 (q : ℚ) : ℤ :=
  Int.fdiv (2 * q.num * 100000 + q.den) (2 * q.den)

/-- The grouping key `(round(lat,5), round(lng,5))`, as scaled integers. -/
def coordKey (r : Rec) : ℤ × ℤ := (round5 r.lat, round5 r.lng)

/-- The guard of the spatial grouping loop: positive rank score (looked up
by uid, as the source does) and both coordinates non-zero. -/
def spatialEligible (st : Reg) (p : String × Rec) : Bool :=
  decide (0 < (get_record_rank_score st p.1).1)
    && decide (p.2.lat ≠ 0) && decide (p.2.lng ≠ 0)

/-- `coord_groups[key].append(uid)` on the insertion-ordered
`defaultdict(list)`. -/
def groupAppend (gs : List ((ℤ × ℤ) × List String)) (k : ℤ × ℤ)
    (u : String) : List ((ℤ × ℤ) × List String) :=
  if gs.any (fun g => g.1 == k) then
    gs.map (fun g => if g.1 == k then (k, g.2 ++ [u]) else g)
  else gs ++ [(k, [u])]

def groupLookup (gs : List ((ℤ × ℤ) × List String)) (k : ℤ × ℤ) :
    List String :=
  ((gs.find? (fun g => g.1 == k)).map Prod.snd).getD []

/-- The grouping loop of `_deduplicate_spatial`. -/
def buildGroups (st : Reg) : List ((ℤ × ℤ) × List String) :=
  st.foldl
    (fun gs p =>
      if spatialEligible st p then groupAppend gs (coordKey p.2) p.1 else gs)
    []

/-- The order of `uids.sort(key=self._get_record_rank_score,
reverse=True)`: `a` may precede `b` iff `b`'s score is lexicographically
≤ `a`'s (stable descending). -/
def rankLe (st : Reg) (a b : String) : Bool :=
  rankGe (get_record_rank_score st a) (get_record_rank_score st b)

/-- Merging one secondary of a group into the group's primary. -/
def mergeInto (primary : String) (st2 : Reg) (sec : String) : Reg :=
  dictSet st2 primary
    (merge_record_data (lookupD st2 primary) (lookupD st2 sec))

/-- Processing one coordinate group: sort by rank (stable descending),
merge every non-primary into the primary, record deletions and count. -/
def spatialStep (s : Reg × Nat × List String)
    (g : (ℤ × ℤ) × List String) : Reg × Nat × List String :=
  let (st, cnt, dels) := s
  if g.2.length < 2 then (st, cnt, dels)
  else
    let sorted := stableSort (rankLe st) g.2
    let primary := sorted.headD ""
    let rest := sorted.tail
    (rest.foldl (mergeInto primary) st, cnt + rest.length, dels ++ rest)

/-- `GeocodingPipeline._deduplicate_spatial()`: returns the new registry
and the merge count. -/
def deduplicate_spatial (st : Reg) : Reg × Nat :=
  let gs := buildGroups st
  let s := gs.foldl spatialStep (st, 0, [])
  (s.1.filter (fun p => !(s.2.2.contains p.1)), s.2.1)

/-! ## Concrete records for claims C4, C5, C10 -/
def c10x : Rec :=
  ⟨"Xname Hospital", "12 MG", "Pune", "MH", "411001", ["A"], 18, 73,
    "HIGH", false⟩

def c10y : Rec :=
  ⟨"Yname", "12 Mahatma Gandhi Road Extension", "", "", "", ["B"], 18, 73,
    "LOW", false⟩

def c5X : Rec :=
  ⟨"Xhosp", "Addr X", "Pune", "MH", "411001", ["A"],
    ⟨1852001, 100000, by norm_num, by norm_num⟩,
    ⟨7385601, 100000, by norm_num, by norm_num⟩, "HIGH", false⟩

/-- Entity Y of the C5 scenario, at `(18.52000, 73.85602)`. -/
def c5Y : Rec :=
  ⟨"Yhosp", "Addr Y", "Pune", "MH", "411001", ["B"],
    ⟨463, 25, by norm_num, by norm_num⟩,
    ⟨3692801, 50000, by norm_num, by norm_num⟩, "LOW", false⟩

/-- A variant of Y at `(18.520012, 73.856007)`, whose coordinates *do*
round to X's 5-decimal key. -/
def c5Y2 : Rec :=
  ⟨"Yhosp", "Addr Y", "Pune", "MH", "411001", ["B"],
    ⟨4630003, 250000, by norm_num, by norm_num⟩,
    ⟨73856007, 1000000, by norm_num, by norm_num⟩, "LOW", false⟩

def c4a : Rec :=
  ⟨"Alpha Clinic", "Addr A", "Pune", "MH", "411001", ["A"], 18, 73,
    "APPROXIMATE", false⟩

def c4b : Rec :=
  ⟨"Beta Clinic", "Addr B", "Pune", "MH", "411001", ["B"], 18, 73,
    "APPROXIMATE", false⟩

/-! ## Text deduplication pass (`_deduplicate_with_text`) -/
/-- `pincode_masters[pin].append(uid)` (insertion-ordered
`defaultdict(list)` keyed by pincode). -/
def pinAppend (gs : List (String × List String)) (k u : String) :
    List (String × List String) :=
  if gs.any (fun g => g.1 == k) then
    gs.map (fun g => if g.1 == k then (k, g.2 ++ [u]) else g)
  else gs ++ [(k, [u])]

/-- `pincode_masters.get(pin, [])`. -/
def pinLookup (gs : List (String × List String)) (k : String) :
    List String :=
  ((gs.find? (fun g => g.1 == k)).map Prod.snd).getD []

/-- The bucketing loop of `_deduplicate_with_text`: records with a valid
(≥ 6 characters) pincode are masters if accuracy is HIGH/LOW, candidates
otherwise; short-pincode records are skipped. -/
def bucketize (st : Reg) : List (String × List String) × List String :=
  st.foldl
    (fun acc p =>
      let pin := pyStrip p.2.pincode
      if pin.length < 6 then acc
      else if p.2.accuracy = "HIGH" ∨ p.2.accuracy = "LOW" then
        (pinAppend acc.1 pin p.1, acc.2)
      else (acc.1, acc.2 ++ [p.1]))
    ([], [])

/-- The best-master search of the matching loop: highest similarity
strictly above 0.85 (first of equal maxima, as in the source's strict
`>` update). -/
def bestMaster (ratio : String → String → ℚ) (st : Reg)
    (candName : String) (ms : List String) : Option String × ℚ :=
  ms.foldl
    (fun best mid =>
      let score := calculate_similarity ratio candName (lookupD st mid).name
      if 85/100 < score ∧ best.2 < score then (some mid, score) else best)
    (none, 0)

/-- Processing one candidate of `_deduplicate_with_text`. -/
def textStep (ratio : String → String → ℚ)
    (masters : List (String × List String)) (s : Reg × Nat × List String)
    (cid : String) : Reg × Nat × List String :=
  let (st, cnt, dels) := s
  let cand := lookupD st cid
  let pin := pyStrip cand.pincode
  let pms := pinLookup masters pin
  match (bestMaster ratio st cand.name pms).1 with
  | none => (st, cnt, dels)
  | some mid =>
    (dictSet st mid (merge_record_data (lookupD st mid) cand), cnt + 1,
      dels ++ [cid])

/-- `GeocodingPipeline._deduplicate_with_text()`. -/
def deduplicate_with_text (ratio : String → String → ℚ) (st : Reg) :
    Reg × Nat :=
  let bk := bucketize st
  let s := bk.2.foldl (textStep ratio bk.1) (st, 0, [])
  (s.1.filter (fun p => !(s.2.2.contains p.1)), s.2.1)

/-- `GeocodingPipeline.deduplicate_data()`: spatial pass then text pass;
returns the registry and both merge counts. -/
def deduplicate_data (ratio : String → String → ℚ) (st : Reg) :
    Reg × Nat × Nat :=
  let s1 := deduplicate_spatial st
  let s2 := deduplicate_with_text ratio s1.1
  (s2.1, s1.2, s2.2)

/-! ## Geocoding (`fetch_geocoding` and the `run` loop)

Network responses are an oracle `GeoEnv`.  An exception raised by a call
(`err`) and a non-`OK` status (`noResult`/`noMatch`) are distinguished,
since the source's `try` blocks treat them differently. -/
inductive FindPlaceResp
  | forbidden
  | denied
  | ok (types : List String) (lat lng : ℚ) (placeId : String)
  | noMatch
  | err
deriving DecidableEq

inductive GeocodeResp
  | ok (lat lng : ℚ) (locType : String)
  | noResult
  | err
deriving DecidableEq

/-- One BigBasket autocomplete prediction (`_search_bb_places` returns the
first one, or `None`; its own `try` swallows every exception). -/
structure BBPred where
  place_id : Option String
  description : String
deriving DecidableEq

/-- The network oracle.  `findPlace` takes the text query and the optional
city-centroid location bias; `geocode` takes the address and the optional
`components` filter string.  `_get_city_coordinates` calls the same
geocode endpoint with no components; its per-run memo cache only avoids
repeat calls and is semantically transparent for a fixed oracle, so it is
not modelled. -/
structure GeoEnv where
  findPlace : String → Option (ℚ × ℚ) → FindPlaceResp
  bb : String → Option BBPred
  placeDetails : String → Option (ℚ × ℚ)
  geocode : String → Option String → GeocodeResp

/-- A geocoding result record (`place_id`, present on some results, is
never copied into the registry by `run` and is dropped). -/
structure GeoResult where
  lat : ℚ
  lng : ℚ
  accuracy : String
deriving DecidableEq

/-- `GeocodingPipeline._get_city_coordinates(city, state)`. -/
def cityCoords (env : GeoEnv) (city state : String) : Option (ℚ × ℚ) :=
  match env.geocode (city ++ ", " ++ state ++ ", India") none with
  | .ok la ln _ => some (la, ln)
  | _ => none

/-- The health-related place types accepted by strategy A. -/
def healthTypes : List String :=
  ["hospital", "doctor", "health", "clinic", "pharmacy"]

/-- `"HIGH" if loc_type in ["ROOFTOP", "RANGE_INTERPOLATED"] else
"LOW"`. -/
def geocodeAccuracy (lt : String) : String :=
  if lt = "ROOFTOP" ∨ lt = "RANGE_INTERPOLATED" then "HIGH" else "LOW"

/-- Strategy D (city-centroid fallback) plus the final LOW/Pending
returns of `fetch_geocoding`, applied to the best result so far. -/
def cityFallback (env : GeoEnv) (city state : String) (best : GeoResult) :
    GeoResult :=
  if best.accuracy = "Pending" ∨ best.lat = 0 then
    match cityCoords env city state with
    | some (la, ln) => ⟨la, ln, "APPROXIMATE"⟩
    | none => if best.lat ≠ 0 ∧ best.lng ≠ 0 then best else ⟨0, 0, "Pending"⟩
  else if best.lat ≠ 0 ∧ best.lng ≠ 0 then best else ⟨0, 0, "Pending"⟩

/-- Attempt 2 of strategy C (name prepended to the address), given the
best result of attempt 1.  A non-HIGH attempt-2 result is discarded: if
attempt 1 produced anything (`best ≠ Pending`) that is returned, else the
cascade falls through to strategy D. -/
def geoAttempt2 (env : GeoEnv) (comps name fullAddress city state : String)
    (best : GeoResult) : GeoResult :=
  match env.geocode (name ++ ", " ++ fullAddress) (some comps) with
  | .err => cityFallback env city state best
  | .noResult =>
    if best.accuracy ≠ "Pending" then best
    else cityFallback env city state best
  | .ok la ln lt =>
    if geocodeAccuracy lt = "HIGH" then ⟨la, ln, "HIGH"⟩
    else if best.accuracy ≠ "Pending" then best
    else cityFallback env city state best

/-- Strategy C (two geocoding attempts) followed by strategy D. -/
def stratC (env : GeoEnv) (name fullAddress city state pin : String) :
    GeoResult :=
  let comps := "country:IN"
    ++ (if pin.length = 6 ∧ pyIsDigit pin then "|postal_code:" ++ pin
        else "")
  match env.geocode fullAddress (some comps) with
  | .err => cityFallback env city state ⟨0, 0, "Pending"⟩
  | .noResult =>
    geoAttempt2 env comps name fullAddress city state ⟨0, 0, "Pending"⟩
  | .ok la ln lt =>
    if geocodeAccuracy lt = "HIGH" then ⟨la, ln, "HIGH"⟩
    else geoAttempt2 env comps name fullAddress city state
      ⟨la, ln, geocodeAccuracy lt⟩

/-- `GeocodingPipeline.fetch_geocoding(record)`.  Returns the result and
the updated `places_api_enabled` flag. -/
def fetch_geocoding (hasKey : Bool) (env : GeoEnv) (pe : Bool) (r : Rec) :
    GeoResult × Bool :=
  if hasKey = false then (⟨0, 0, "NoKey"⟩, pe)
  else
    let name := pyStrip r.name
    let address := pyStrip r.address
    let city := pyStrip r.city
    let state := pyStrip r.state
    let pin := pyStrip r.pincode
    let bias := cityCoords env city state
    let stepA : Option GeoResult × Bool :=
      if pe then
        match env.findPlace (name ++ " " ++ city ++ " " ++ state) bias with
        | .forbidden => (none, false)
        | .denied => (none, false)
        | .ok types la ln _ =>
          if healthTypes.any (fun t => types.contains t) then
            (some ⟨la, ln, "HIGH"⟩, pe)
          else (none, pe)
        | .noMatch => (none, pe)
        | .err => (none, pe)
      else (none, pe)
    match stepA with
    | (some res, pe2) => (res, pe2)
    | (none, pe2) =>
      match env.bb (name ++ ", " ++ city) with
      | some pred =>
        (match pred.place_id with
         | some pid =>
           match env.placeDetails pid with
           | some (la, ln) => (⟨la, ln, "HIGH"⟩, pe2)
           | none =>
             (stratC env name pred.description city state pin, pe2)
         | none => (stratC env name pred.description city state pin, pe2))
      | none =>
        (stratC env name (address ++ ", " ++ city ++ ", " ++ state)
          city state pin, pe2)

/-- Case 1 of the `run` loop body: a successful geocode (both returned
coordinates non-zero) is written to the record. -/
def applyGeoCase1 (r : Rec) (res : GeoResult) : Rec :=
  if res.lat ≠ 0 ∧ res.lng ≠ 0 then
    { r with
        lat := res.lat,
        lng := res.lng,
        accuracy := res.accuracy,
        needsUpdate := false }
  else r

/-- Case 2: a record still `Pending` keeps old coordinates but becomes
`LOW` when its `lat` (only `lat` is checked) is non-zero. -/
def applyGeoCase2 (r : Rec) : Rec :=
  if r.accuracy = "Pending" then
    { r with
        accuracy := if r.lat ≠ 0 then "LOW" else "Pending",
        needsUpdate := false }
  else r

/-- The final normalization: a non-HIGH/LOW record with a zero coordinate
is reset to `Pending`. -/
def applyGeoCase3 (r : Rec) : Rec :=
  if ¬ (r.accuracy = "HIGH" ∨ r.accuracy = "LOW") then
    { r with
        accuracy := if r.lat = 0 ∨ r.lng = 0 then "Pending" else r.accuracy,
        needsUpdate := false }
  else r

/-- The post-geocoding updates the `run` loop applies to one record
(the three sequential `if` statements of lines 819-838). -/
def applyGeoResult (r : Rec) (res : GeoResult) : Rec :=
  applyGeoCase3 (applyGeoCase2 (applyGeoCase1 r res))

/-- The pending selection of `run` (records with `_needs_update`, or
`lat == 0.0`, or accuracy `Pending`). -/
def pendingOf (st : Reg) : List String :=
  (st.filter fun p =>
    p.2.needsUpdate || decide (p.2.lat = 0)
      || decide (p.2.accuracy = "Pending")).map Prod.fst

/-- One iteration of the geocoding loop (checkpoint saves and the rate
limit sleep are omitted: they touch no registry field this development
reasons about). -/
def geocodeStep (env : GeoEnv) (s : Reg × Bool) (uid : String) :
    Reg × Bool :=
  let r := lookupD s.1 uid
  let fr := fetch_geocoding true env s.2 r
  (dictSet s.1 uid (applyGeoResult r fr.1), fr.2)

/-- The geocoding loop of `run` (`places_api_enabled` starts `True`). -/
def geocodeLoop (env : GeoEnv) (st : Reg) : Reg × Bool :=
  (pendingOf st).foldl (geocodeStep env) (st, true)

/-- `GeocodingPipeline.run()` from the point where the registry has been
loaded: the missing-key guard (which returns before anything else
happens), ingestion, the geocoding loop, and deduplication.  Persistence
(`save_to_disk`) and `enrich_source_metadata` perform no registry-state
change this development reasons about. -/
def run_pipeline (ratio : String → String → ℚ) (hasKey : Bool)
    (env : GeoEnv) (files : List SourceFile) (st : Reg) : Reg :=
  if hasKey = false then st
  else
    let st1 := merge_sources files st
    if (pendingOf st1).isEmpty then (deduplicate_data ratio st1).1
    else (deduplicate_data ratio (geocodeLoop env st1).1).1

/-! ## Claims C3 and C6 -/
def c3rec : Rec :=
  ⟨"Apollo", "Addr", "Pune", "MH", "411001", ["A"], 0, 0, "Pending", true⟩

def c3env : GeoEnv :=
  ⟨fun _ _ => .noMatch, fun _ => none, fun _ => none, fun _ _ => .noResult⟩

def c6rec : Rec :=
  ⟨"Alpha", "12 Road", "Pune", "MH", "411001", ["A"], 0, 0, "Pending",
    true⟩

def c6env : GeoEnv :=
  ⟨fun _ _ => .noMatch,
   fun _ => none,
   fun _ => none,
   fun q _ =>
     if q = "Alpha, 12 Road, Pune, MH" then .ok 10 20 "GEOMETRIC_CENTER"
     else if q = "Pune, MH, India" then .ok 1 2 "X"
     else .noResult⟩

/-! ## Claim C9: the coordinate/accuracy invariant -/
/-- The invariant exactly as claim C9 states it: HIGH/LOW/APPROXIMATE
entities have both coordinates non-zero, and both-zero coordinates occur
only with Pending/NoKey/Failed accuracy. -/
def InvClaim (r : Rec) : Prop :=
  ((r.accuracy = "HIGH" ∨ r.accuracy = "LOW" ∨ r.accuracy = "APPROXIMATE") →
    r.lat ≠ 0 ∧ r.lng ≠ 0)
  ∧ (r.lat = 0 ∧ r.lng = 0 →
    (r.accuracy = "Pending" ∨ r.accuracy = "NoKey" ∨ r.accuracy = "Failed"))

/-- The strengthened invariant the phases do preserve: the coordinates
are zero or non-zero *together*, and the zero (unset) state occurs only
with Pending/NoKey/Failed accuracy. -/
def InvStrong (r : Rec) : Prop :=
  (r.lat = 0 ↔ r.lng = 0)
  ∧ (r.lat = 0 →
    (r.accuracy = "Pending" ∨ r.accuracy = "NoKey" ∨ r.accuracy = "Failed"))

instance (r : Rec) : Decidable (InvClaim r) := by
  unfold InvClaim; infer_instance

instance (r : Rec) : Decidable (InvStrong r) := by
  unfold InvStrong; infer_instance

/-- A registry-wide record invariant. -/
def RegInv (P : Rec → Prop) (st : Reg) : Prop := ∀ p ∈ st, P p.2

instance (P : Rec → Prop) [DecidablePred P] (st : Reg) :
    Decidable (RegInv P st) := by
  unfold RegInv; infer_instance

def c9rec : Rec :=
  ⟨"Alpha", "Addr", "Pune", "MH", "411001", ["A"], 5, 0, "Pending", false⟩

def c9env : GeoEnv :=
  ⟨fun _ _ => .noMatch, fun _ => none, fun _ => none, fun _ _ => .noResult⟩

def c9wrec : Rec :=
  ⟨"Alpha", "Addr", "Pune", "MH", "411001", ["A"], 0, 0, "Pending", true⟩

def c9wenv : GeoEnv :=
  ⟨fun _ _ => .noMatch, fun _ => none, fun _ => none, fun _ _ => .noResult⟩

/-- The fields of a record that spatial grouping, ranking and both dedup
passes read, other than the pincode: name, accuracy, lat, lng. -/
def sameCore (r r' : Rec) : Prop :=
  r'.name = r.name ∧ r'.accuracy = r.accuracy ∧ r'.lat = r.lat
    ∧ r'.lng = r.lng

/-- Entry-wise relation between the registry at the start of a dedup pass
and a later state of the same pass: keys in place, core fields intact. -/
def CoreRel (st st' : Reg) : Prop :=
  List.Forall₂ (fun p q : String × Rec => p.1 = q.1 ∧ sameCore p.2 q.2) st st'

/-- The uids the spatial pass can touch (group members). -/
def eligUids (st : Reg) : List String :=
  (st.filter (fun p => spatialEligible st p)).map Prod.fst

/-- The grouping guard as a function of the record alone; equal to
`spatialEligible` on the entries of a duplicate-free registry. -/
def eligRec (r : Rec) : Bool :=
  decide (0 < accuracy_map r.accuracy) && decide (r.lat ≠ 0)
    && decide (r.lng ≠ 0)

/-- After a spatial pass, the remaining eligible entities have pairwise
distinct rounded coordinate keys. -/
def SpatialSeparated (st : Reg) : Prop :=
  (st.filter (fun p => eligRec p.2)).Pairwise
    (fun p q => coordKey p.2 ≠ coordKey q.2)

/-! ### Text-pass characterization -/
/-- Record fields the text pass never alters on any surviving entry:
the spatial core plus the pincode (a master's pincode is non-empty, so
the backfill branch of `_merge_record_data` never fires on it). -/
def sameText (r r' : Rec) : Prop :=
  sameCore r r' ∧ r'.pincode = r.pincode

/-- Entry-wise relation between the registry at the start of the text pass
and a later state of the pass: keys in place, text-core fields intact. -/
def TextRel (st st' : Reg) : Prop :=
  List.Forall₂ (fun p q : String × Rec => p.1 = q.1 ∧ sameText p.2 q.2) st st'

/-- The bucketing guard that classifies an entry as a master: valid
(stripped length ≥ 6) pincode and accuracy HIGH or LOW. -/
def masterPred (p : String × Rec) : Bool :=
  !decide ((pyStrip p.2.pincode).length < 6)
    && decide (p.2.accuracy = "HIGH" ∨ p.2.accuracy = "LOW")

/-- The bucketing guard that classifies an entry as a merge candidate:
valid pincode but accuracy outside HIGH/LOW. -/
def candPred (p : String × Rec) : Bool :=
  !decide ((pyStrip p.2.pincode).length < 6)
    && !decide (p.2.accuracy = "HIGH" ∨ p.2.accuracy = "LOW")

/-- `u` heads some master bucket: the only uids the text pass writes to. -/
def MasterUid (M : List (String × List String)) (u : String) : Prop :=
  ∃ g ∈ M, u ∈ g.2

/-- Invariant of the matching fold of `_deduplicate_with_text` over the
pass's initial registry `st₁`: entries keep their text-core fields in
place, non-master uids are untouched, and only bucketed candidates are
marked deleted. -/
def textInv (st₁ : Reg) (s : Reg × Nat × List String) : Prop :=
  TextRel st₁ s.1
    ∧ (∀ u, ¬ MasterUid (bucketize st₁).1 u →
        lookup? s.1 u = lookup? st₁ u)
    ∧ (∀ u ∈ s.2.2, u ∈ (bucketize st₁).2)

/-- No surviving merge candidate has a master it would merge into: the
text pass's fixed-point condition. -/
def TextSeparated (ratio : String → String → ℚ) (st : Reg) : Prop :=
  ∀ cid r, (cid, r) ∈ st → candPred (cid, r) = true →
    (bestMaster ratio st r.name
      (pinLookup (bucketize st).1 (pyStrip r.pincode))).1 = none

def c4wa : Rec :=
  ⟨"Wit Hospital", "5 Lane", "Pune", "MH", "411001", [], 7, 8,
    "APPROXIMATE", false⟩

def c4wst : Reg := [("W1", c4wa)]

def c7r : Rec :=
  ⟨"Alpha Hospital", "1 Road", "Pune", "MH", "411001", [], 1, 2,
    "HIGH", false⟩

def c7st : Reg := [("C7A", c7r)]

/-! ## Theorems -/

theorem cleanUpperList_append (a b : List Char) :
    cleanUpperList (a ++ b) = cleanUpperList a ++ cleanUpperList b := by
  simp [cleanUpperList, List.flatMap_append, List.filter_append]

theorem cleanUpperList_singleton_neutral {c : Char}
    (h : keyNeutral c = true) : cleanUpperList [c] = [] := by
  unfold keyNeutral at h
  rw [List.all_eq_true] at h
  unfold cleanUpperList
  simp only [List.flatMap_cons, List.flatMap_nil, List.append_nil]
  rw [List.filter_eq_nil]
  intro u hu
  have hx := h u hu
  simp only [Bool.not_eq_true'] at hx
  simp [hx]

theorem cleanUpperList_edit {a b : List Char} (h : NameEditSafe a b) :
    cleanUpperList a = cleanUpperList b := by
  cases h with
  | caseChange pre post c c' _ _ hcc =>
    show cleanUpperList (pre ++ c :: post) = cleanUpperList (pre ++ c' :: post)
    have h1 : (c :: post : List Char) = [c] ++ post := rfl
    have h2 : (c' :: post : List Char) = [c'] ++ post := rfl
    rw [h1, h2, cleanUpperList_append, cleanUpperList_append,
      cleanUpperList_append, cleanUpperList_append]
    have hcl : cleanUpperList [c] = cleanUpperList [c'] := by
      simp [cleanUpperList, hcc]
    rw [hcl]
  | insertPunct pre post c hc hn =>
    show cleanUpperList (pre ++ post) = cleanUpperList (pre ++ c :: post)
    have h2 : (c :: post : List Char) = [c] ++ post := rfl
    rw [h2, cleanUpperList_append, cleanUpperList_append, cleanUpperList_append,
      cleanUpperList_singleton_neutral hn]
    simp
  | deletePunct pre post c hc hn =>
    show cleanUpperList (pre ++ c :: post) = cleanUpperList (pre ++ post)
    have h2 : (c :: post : List Char) = [c] ++ post := rfl
    rw [h2, cleanUpperList_append, cleanUpperList_append, cleanUpperList_append,
      cleanUpperList_singleton_neutral hn]
    simp

/-- Counterexample to claim C8 as stated: inserting `'ß'` — a character
outside `[A-Za-z0-9]`, hence an edit the claim quantifies over — changes
the generated key, because CPython's `str.upper()` expands it to `SS`,
which survives the `[^A-Z0-9]` strip
(`STRAHOSPITAL_411001` vs `STRASSHOSPITAL_411001`). -/
theorem C8_identity_key_counterexample :
    NameEdit "Stra Hospital".data "Straß Hospital".data
      ∧ ¬ claimAlnum 'ß'
      ∧ generate_unique_id "Straß Hospital" "411001" "Pune"
          ≠ generate_unique_id "Stra Hospital" "411001" "Pune" := by
  refine ⟨?_, by decide, by decide⟩
  have h1 : "Stra Hospital".data = "Stra".data ++ " Hospital".data := by
    decide
  have h2 : "Straß Hospital".data
      = "Stra".data ++ 'ß' :: " Hospital".data := by decide
  rw [h1, h2]
  exact NameEdit.insertPunct _ _ 'ß' (by decide)

/-- Claim C8 (amended). For every `name`, `pin`, `city`, and every
`name'` obtained from `name` by a sequence of case changes of ASCII
letters and insertions or deletions of characters outside `[A-Za-z0-9]`
whose uppercasing contributes no `[A-Z0-9]` character (all ASCII
punctuation and whitespace qualifies; `'ß'` and the 16 other special
characters do not), the generated unique id is unchanged. -/
theorem C8_identity_key_amended (name name' : List Char) (pin city : String)
    (h : Relation.ReflTransGen NameEditSafe name name') :
    generate_unique_id (String.mk name) pin city
      = generate_unique_id (String.mk name') pin city := by
  have hclean : cleanUpperList name = cleanUpperList name' := by
    induction h with
    | refl => rfl
    | tail _ hstep ih => exact ih.trans (cleanUpperList_edit hstep)
  simp only [generate_unique_id, cleanUpper]
  rw [hclean]

/-- Witness for the amended C8: `"a-b"` and `"Ab"` (one case change, one
punctuation deletion) generate the same id. -/
theorem C8_identity_key_amended_witness :
    generate_unique_id (String.mk ['a', '-', 'b']) "411001" "Pune"
      = generate_unique_id (String.mk ['A', 'b']) "411001" "Pune" :=
  C8_identity_key_amended _ _ _ _
    (Relation.ReflTransGen.head
      (NameEditSafe.caseChange [] ['-', 'b'] 'a' 'A' (by decide) (by decide)
        (by decide))
      (Relation.ReflTransGen.single
        (NameEditSafe.deletePunct ['A'] ['b'] '-' (by decide) (by decide))))

theorem keysOf_dictSet (st : Reg) (k : String) (v : Rec) :
    keysOf (dictSet st k v)
      = if st.any (fun p => p.1 == k) then keysOf st else keysOf st ++ [k] := by
  unfold dictSet
  split
  · simp only [keysOf, List.map_map]
    apply List.map_congr_left
    intro p _
    by_cases h : p.1 = k <;> simp [h]
  · simp [keysOf]

theorem mem_keysOf_dictSet {st : Reg} {uid : String} (k : String) (v : Rec)
    (h : uid ∈ keysOf st) : uid ∈ keysOf (dictSet st k v) := by
  rw [keysOf_dictSet]; split <;> simp [h]

theorem find?_dictSetMap_self (st : Reg) (k : String) (v : Rec) :
    List.find? (fun p => p.1 == k)
        (st.map (fun p => if p.1 == k then (k, v) else p))
      = (List.find? (fun p => p.1 == k) st).map (fun _ => (k, v)) := by
  have hpred : ((fun p => p.1 == k) ∘
        fun p : String × Rec => if p.1 == k then (k, v) else p)
      = (fun p : String × Rec => p.1 == k) := by
    funext p; by_cases hp : p.1 = k <;> simp [hp]
  rw [List.find?_map, hpred]
  cases hfind : List.find? (fun p => p.1 == k) st with
  | none => simp
  | some q =>
    have hq := List.find?_some hfind
    simp only [beq_iff_eq] at hq
    simp [hq]

theorem find?_dictSetMap_ne (st : Reg) (k k' : String) (v : Rec)
    (h : k' ≠ k) :
    List.find? (fun p => p.1 == k')
        (st.map (fun p => if p.1 == k then (k, v) else p))
      = List.find? (fun p => p.1 == k') st := by
  have hpred : ((fun p => p.1 == k') ∘
        fun p : String × Rec => if p.1 == k then (k, v) else p)
      = (fun p : String × Rec => p.1 == k') := by
    funext p; by_cases hp : p.1 = k <;> simp [hp]
  rw [List.find?_map, hpred]
  cases hfind : List.find? (fun p => p.1 == k') st with
  | none => simp
  | some q =>
    have hq := List.find?_some hfind
    simp only [beq_iff_eq] at hq
    have : ¬ q.1 = k := by rw [hq]; exact h
    simp [this]

theorem find?_none_of_not_any (st : Reg) (k : String)
    (hany : ¬ (st.any fun p => p.1 == k) = true) :
    List.find? (fun p => p.1 == k) st = none := by
  rw [List.find?_eq_none]
  intro x hx hpx
  exact hany (List.any_eq_true.mpr ⟨x, hx, hpx⟩)

theorem find?_append_single_self (st : Reg) (k : String) (v : Rec)
    (hnone : List.find? (fun p => p.1 == k) st = none) :
    List.find? (fun p => p.1 == k) (st ++ [(k, v)]) = some (k, v) := by
  induction st with
  | nil => simp
  | cons q qs ih =>
    by_cases hq : q.1 = k
    · simp [List.find?_cons, hq] at hnone
    · have hq' : ((q.1 == k) : Bool) = false := by simp [hq]
      simp only [List.cons_append, List.find?_cons, hq'] at hnone ⊢
      exact ih hnone

theorem find?_append_single_ne (st : Reg) (k k' : String) (v : Rec)
    (h : k' ≠ k) :
    List.find? (fun p => p.1 == k') (st ++ [(k, v)])
      = List.find? (fun p => p.1 == k') st := by
  induction st with
  | nil => simp [List.find?_cons, Ne.symm h]
  | cons q qs ih =>
    by_cases hq' : q.1 = k'
    · simp [List.find?_cons, hq']
    · simp [List.find?_cons, hq', ih]

theorem lookup?_dictSet_self (st : Reg) (k : String) (v : Rec) :
    lookup? (dictSet st k v) k = some v := by
  unfold dictSet lookup?
  split
  · rename_i hany
    rw [find?_dictSetMap_self]
    rw [List.any_eq_true] at hany
    obtain ⟨p, hp, hpk⟩ := hany
    have : (List.find? (fun p => p.1 == k) st).isSome := by
      rw [List.find?_isSome]
      exact ⟨p, hp, hpk⟩
    cases hfind : List.find? (fun p => p.1 == k) st with
    | none => rw [hfind] at this; simp at this
    | some q => simp
  · rename_i hany
    rw [find?_append_single_self st k v (find?_none_of_not_any st k hany)]
    rfl

theorem lookup?_dictSet_ne (st : Reg) (k k' : String) (v : Rec)
    (h : k' ≠ k) :
    lookup? (dictSet st k v) k' = lookup? st k' := by
  unfold dictSet lookup?
  split
  · rw [find?_dictSetMap_ne st k k' v h]
  · rw [find?_append_single_ne st k k' v h]

/-- Invariants that hold of every value of a dict survive `dictSet` with an
invariant-satisfying value. -/
theorem forall_mem_dictSet {P : Rec → Prop} {st : Reg} {k : String} {v : Rec}
    (hst : ∀ p ∈ st, P p.2) (hv : P v) : ∀ p ∈ dictSet st k v, P p.2 := by
  intro p hp
  unfold dictSet at hp
  split at hp
  · obtain ⟨q, hq, hqe⟩ := List.mem_map.mp hp
    by_cases h : q.1 = k
    · simp [h] at hqe; rw [← hqe]; exact hv
    · simp [h] at hqe; rw [← hqe]; exact hst q hq
  · rcases List.mem_append.mp hp with h | h
    · exact hst p h
    · simp at h; rw [h]; exact hv

/-- A generic induction principle for `List.foldl`. -/
theorem foldl_rec {σ α : Type _} (f : σ → α → σ) (P : σ → Prop)
    (l : List α) (s : σ) (h0 : P s)
    (hstep : ∀ s a, a ∈ l → P s → P (f s a)) : P (l.foldl f s) := by
  induction l generalizing s with
  | nil => exact h0
  | cons a l ih =>
    exact ih _ (hstep s a (by simp) h0)
      (fun s b hb hpb => hstep s b (by simp [hb]) hpb)

theorem process_source_record_fst (r : SrcRec) (c : String) (st : Reg) :
    (process_source_record r c st).1 = recordUid r := by
  simp only [process_source_record, recordUid]
  split
  · rfl
  · split
    · split <;> rfl
    · rfl

theorem process_source_record_keys {uid : String} (r : SrcRec) (c : String)
    (st : Reg) (h : uid ∈ keysOf st) :
    uid ∈ keysOf (process_source_record r c st).2 := by
  simp only [process_source_record]
  split
  · exact h
  · split
    · split
      · exact mem_keysOf_dictSet _ _ h
      · exact mem_keysOf_dictSet _ _ h
    · exact mem_keysOf_dictSet _ _ h

theorem ingestRecord_eq (c : String) (s : Reg × List String) (r : SrcRec) :
    ingestRecord c s r
      = ((process_source_record r c s.1).2, s.2 ++ (recordUid r).toList) := by
  unfold ingestRecord
  have h := process_source_record_fst r c s.1
  rcases hp : process_source_record r c s.1 with ⟨u, st2⟩
  rw [hp] at h
  cases u with
  | none => simp at h; simp [← h]
  | some uid => simp at h; simp [← h]

theorem ingest_records_snd (c : String) :
    ∀ (recs : List SrcRec) (s : Reg × List String),
      (recs.foldl (ingestRecord c) s).2 = s.2 ++ recs.filterMap recordUid := by
  intro recs
  induction recs with
  | nil => simp
  | cons r rest ih =>
    intro s
    rw [List.foldl_cons, ih, ingestRecord_eq]
    cases h : recordUid r <;> simp [h, List.filterMap_cons]

theorem ingest_files_snd :
    ∀ (files : List SourceFile) (s : Reg × List String),
      (files.foldl ingestFile s).2 = s.2 ++ activeUids files := by
  intro files
  induction files with
  | nil => simp [activeUids]
  | cons f fs ih =>
    intro s
    rw [List.foldl_cons, ih]
    unfold ingestFile
    cases h : f.records with
    | none => simp [activeUids, h]
    | some recs => rw [ingest_records_snd]; simp [activeUids, h]

theorem ingest_keys {uid : String} (files : List SourceFile)
    (s : Reg × List String) (h : uid ∈ keysOf s.1) :
    uid ∈ keysOf (files.foldl ingestFile s).1 := by
  refine foldl_rec ingestFile (fun s => uid ∈ keysOf s.1) files s h ?_
  intro s f _ hs
  unfold ingestFile
  cases f.records with
  | none => exact hs
  | some recs =>
    refine foldl_rec (ingestRecord f.company) (fun s => uid ∈ keysOf s.1)
      recs s hs ?_
    intro s r _ hs
    rw [ingestRecord_eq]
    exact process_source_record_keys r f.company s.1 hs

theorem mem_keysOf_filter {st : Reg} {uid : String} {q : String × Rec → Bool} :
    uid ∈ keysOf (st.filter q) ↔ ∃ r, (uid, r) ∈ st ∧ q (uid, r) := by
  constructor
  · intro h
    obtain ⟨p, hp, he⟩ := List.mem_map.mp h
    obtain ⟨hmem, hq⟩ := List.mem_filter.mp hp
    exact ⟨p.2, by rw [show (uid, p.2) = p from by cases p; simp_all]; exact ⟨hmem, by cases p; simp_all⟩⟩
  · rintro ⟨r, hmem, hq⟩
    exact List.mem_map.mpr ⟨(uid, r), List.mem_filter.mpr ⟨hmem, hq⟩, rfl⟩

theorem mem_keysOf_iff {st : Reg} {uid : String} :
    uid ∈ keysOf st ↔ ∃ r, (uid, r) ∈ st := by
  constructor
  · intro h
    obtain ⟨p, hp, he⟩ := List.mem_map.mp h
    exact ⟨p.2, by cases p; simp_all⟩
  · rintro ⟨r, h⟩
    exact List.mem_map.mpr ⟨(uid, r), h, rfl⟩

/-- Claim C1 (amended): provided at least one source file is present,
a pre-existing registry entity is retained by `merge_sources` iff its key
was produced by a non-skipped record of a readable source file; all other
pre-existing entities are pruned.  (With an empty source-file list the
function returns early and prunes nothing — see the counterexample.) -/
theorem C1_pruning_amended (files : List SourceFile) (st : Reg) (uid : String)
    (hne : files ≠ []) (hmem : uid ∈ keysOf st) :
    uid ∈ keysOf (merge_sources files st) ↔ uid ∈ activeUids files := by
  unfold merge_sources
  rw [if_neg (by simpa using hne)]
  have hsnd := ingest_files_snd files (st, [])
  have hkeys := ingest_keys files (st, []) hmem
  simp only at hsnd
  constructor
  · intro h
    obtain ⟨r, _, hq⟩ := mem_keysOf_filter.mp h
    simp only [List.contains] at hq
    have := List.elem_iff.mp hq
    rwa [hsnd] at this
  · intro h
    obtain ⟨r, hr⟩ := mem_keysOf_iff.mp hkeys
    refine mem_keysOf_filter.mpr ⟨r, hr, ?_⟩
    simp only [List.contains]
    exact List.elem_iff.mpr (by rw [hsnd]; simpa using h)

/-- Witness for C1 (amended): one readable file with one record keeps the
matching registry entry and prunes the stale one. -/
theorem C1_pruning_amended_witness :
    let e : Rec := ⟨"Apollo", "Addr", "Pune", "MH", "411001", ["A"], 0, 0,
      "Pending", false⟩
    let stale : Rec := ⟨"Gone", "Addr", "Pune", "MH", "411002", ["A"], 0, 0,
      "Pending", false⟩
    let st : Reg := [("APOLLO_411001", e), ("GONE_411002", stale)]
    let f : SourceFile :=
      ⟨"A", some [⟨"Apollo", "Addr", "Pune", "MH", "411001"⟩]⟩
    ("APOLLO_411001" ∈ keysOf (merge_sources [f] st)
        ↔ "APOLLO_411001" ∈ activeUids [f])
      ∧ ("GONE_411002" ∈ keysOf (merge_sources [f] st)
        ↔ "GONE_411002" ∈ activeUids [f]) :=
  ⟨C1_pruning_amended _ _ _ (by simp) (by decide),
   C1_pruning_amended _ _ _ (by simp) (by decide)⟩

/-- Counterexample to claim C1 as stated: with an *empty* source-file list
`merge_sources` returns early, so an entity whose key was produced by no
record of any readable source file is nevertheless retained. -/
theorem C1_pruning_counterexample :
    let e : Rec := ⟨"Gone", "Addr", "Pune", "MH", "411002", ["A"], 0, 0,
      "Pending", false⟩
    let st : Reg := [("GONE_411002", e)]
    merge_sources [] st = st ∧ activeUids [] = [] ∧ st ≠ [] := by
  refine ⟨rfl, rfl, by simp⟩

/-- Claim C2: processing a source record whose identity key matches an
entity with accuracy `HIGH` changes only that entity's `excluded_by` list
(appending the company if absent); name, address, city, state, pincode and
the `_needs_update` flag are untouched. -/
theorem C2_high_accuracy_stickiness (r : SrcRec) (c : String) (st : Reg)
    (uid : String) (e : Rec)
    (hskip : skipRecord r = false)
    (huid : generate_unique_id r.hospitalName r.pinCode r.city = uid)
    (hfound : lookup? st uid = some e)
    (hhigh : e.accuracy = "HIGH")
    (haddr : pyStrip e.address ≠ pyStrip r.address) :
    process_source_record r c st
      = (some uid, dictSet st uid
          { e with excluded_by :=
              if c ∈ e.excluded_by then e.excluded_by
              else e.excluded_by ++ [c] }) := by
  subst huid
  have h1 : (skipRecord r = true) = False := by simp [hskip]
  simp only [process_source_record, h1, if_false, hfound, appendCompany]
  rw [if_pos hhigh]
  split
  · cases e
    rfl
  · cases e
    rfl

/-- Witness for C2 at a concrete registry. -/
theorem C2_high_accuracy_stickiness_witness :
    let e : Rec := ⟨"Apollo", "Old Address", "Pune", "MH", "411001", ["A"],
      (18 : ℚ), (73 : ℚ), "HIGH", false⟩
    let st : Reg := [("APOLLO_411001", e)]
    let r : SrcRec := ⟨"Apollo", "Brand New Address 99", "Pune", "MH",
      "411001"⟩
    process_source_record r "B" st
      = (some "APOLLO_411001", dictSet st "APOLLO_411001"
          { e with excluded_by := ["A", "B"] }) := by
  intro e st r
  have h := C2_high_accuracy_stickiness r "B" st "APOLLO_411001" e
    (by decide) (by decide) (by rfl) (by rfl) (by decide)
  rw [h]
  rfl

theorem mem_insertStable {α : Type _} (le : α → α → Bool) (x a : α) :
    ∀ l, a ∈ insertStable le x l ↔ a = x ∨ a ∈ l := by
  intro l
  induction l with
  | nil => simp [insertStable]
  | cons y l ih =>
    unfold insertStable
    split
    · simp only [List.mem_cons, ih]
      tauto
    · simp only [List.mem_cons]

theorem mem_stableSort {α : Type _} (le : α → α → Bool) (a : α) (l : List α) :
    a ∈ stableSort le l ↔ a ∈ l := by
  have aux : ∀ (l acc : List α),
      a ∈ l.foldl (fun acc x => insertStable le x acc) acc
        ↔ a ∈ acc ∨ a ∈ l := by
    intro l
    induction l with
    | nil => simp
    | cons x xs ih =>
      intro acc
      rw [List.foldl_cons, ih, mem_insertStable]
      simp
      tauto
  rw [stableSort, aux]
  simp

theorem length_insertStable {α : Type _} (le : α → α → Bool) (x : α) :
    ∀ l, (insertStable le x l).length = l.length + 1 := by
  intro l
  induction l with
  | nil => rfl
  | cons y l ih =>
    unfold insertStable
    split <;> simp [ih]

theorem length_stableSort {α : Type _} (le : α → α → Bool) (l : List α) :
    (stableSort le l).length = l.length := by
  have aux : ∀ (l acc : List α),
      (l.foldl (fun acc x => insertStable le x acc) acc).length
        = acc.length + l.length := by
    intro l
    induction l with
    | nil => simp
    | cons x xs ih =>
      intro acc
      rw [List.foldl_cons, ih, length_insertStable, List.length_cons]
      omega
  rw [stableSort, aux]
  simp

/-- Closed form of `_merge_record_data`. -/
theorem merge_record_data_eq (p s : Rec) :
    merge_record_data p s =
      { p with
          excluded_by := pySetList (p.excluded_by ++ s.excluded_by),
          address :=
            if (normalize_for_match (pyStrip p.address)).length
                < (normalize_for_match (pyStrip s.address)).length then
              s.address
            else p.address,
          city := if p.city = "" ∧ s.city ≠ "" then s.city else p.city,
          state := if p.state = "" ∧ s.state ≠ "" then s.state else p.state,
          pincode :=
            if p.pincode = "" ∧ s.pincode ≠ "" then s.pincode
            else p.pincode } := by
  cases p
  unfold merge_record_data backfillPincode backfillState backfillCity
    mergeAddress mergeInsurers
  dsimp only
  split_ifs <;> rfl

theorem merge_name (p s : Rec) : (merge_record_data p s).name = p.name := by
  rw [merge_record_data_eq]

theorem merge_lat (p s : Rec) : (merge_record_data p s).lat = p.lat := by
  rw [merge_record_data_eq]

theorem merge_lng (p s : Rec) : (merge_record_data p s).lng = p.lng := by
  rw [merge_record_data_eq]

theorem merge_accuracy (p s : Rec) :
    (merge_record_data p s).accuracy = p.accuracy := by
  rw [merge_record_data_eq]

theorem merge_needsUpdate (p s : Rec) :
    (merge_record_data p s).needsUpdate = p.needsUpdate := by
  rw [merge_record_data_eq]

theorem merge_pincode_of_ne (p s : Rec) (h : p.pincode ≠ "") :
    (merge_record_data p s).pincode = p.pincode := by
  rw [merge_record_data_eq]
  simp [h]

/-- `round5` is `round(q * 10^5)` in the Mathlib sense. -/
theorem round5_eq_round (q : ℚ) : round5 q = round (q * 100000) := by
  rw [round_eq]
  have hden : ((q.den : ℚ)) ≠ 0 := by
    exact_mod_cast q.den_nz
  have hq : (q.num : ℚ) = q * (q.den : ℚ) :=
    (div_eq_iff hden).mp (Rat.num_div_den q)
  have key : q * 100000 + 1/2
      = ((2 * q.num * 100000 + (q.den : ℤ) : ℤ) : ℚ)
        / ((2 * q.den : ℕ) : ℚ) := by
    rw [eq_div_iff (by positivity)]
    push_cast
    rw [hq]
    ring
  rw [key, Rat.floor_intCast_div_natCast]
  unfold round5
  rw [Int.fdiv_eq_ediv _ (by positivity)]
  push_cast
  ring_nf

/-- Claim C10: `_merge_record_data` replaces the primary's address with
the secondary's whenever the secondary's noise-stripped normalized address
is strictly longer — the primary's accuracy (in particular `HIGH`) is
never consulted — while city/state/pincode are only backfilled when the
primary's field is empty; and a spatial-dedup merge really does overwrite
a HIGH primary's address this way. -/
theorem C10_merge_overwrites_high_address :
    (∀ p s : Rec,
      ((normalize_for_match (pyStrip p.address)).length
          < (normalize_for_match (pyStrip s.address)).length →
        (merge_record_data p s).address = s.address)
      ∧ ((normalize_for_match (pyStrip s.address)).length
          ≤ (normalize_for_match (pyStrip p.address)).length →
        (merge_record_data p s).address = p.address)
      ∧ (p.city ≠ "" → (merge_record_data p s).city = p.city)
      ∧ (p.city = "" → s.city ≠ "" → (merge_record_data p s).city = s.city)
      ∧ (p.state ≠ "" → (merge_record_data p s).state = p.state)
      ∧ (p.pincode ≠ "" → (merge_record_data p s).pincode = p.pincode)
      ∧ (merge_record_data p s).accuracy = p.accuracy
      ∧ (merge_record_data p s).lat = p.lat
      ∧ (merge_record_data p s).lng = p.lng)
    ∧ (deduplicate_spatial [("X", c10x), ("Y", c10y)]
        = ([("X", merge_record_data c10x c10y)], 1)
      ∧ c10x.accuracy = "HIGH"
      ∧ (merge_record_data c10x c10y).address = c10y.address
      ∧ (merge_record_data c10x c10y).address ≠ c10x.address) := by
  constructor
  · intro p s
    rw [merge_record_data_eq]
    refine ⟨fun h => ?_, fun h => ?_, fun h => ?_, fun h1 h2 => ?_,
      fun h => ?_, fun h => ?_, rfl, rfl, rfl⟩
    · simp [h]
    · simp [Nat.not_lt.mpr h]
    · simp [h]
    · simp [h1, h2]
    · simp [h]
    · simp [h]
  · refine ⟨by decide, by decide, by decide, by decide⟩

/-- Witness for C10: the HIGH primary `c10x` has its address overwritten
by `c10y`'s longer one, while its non-empty city is kept. -/
theorem C10_merge_overwrites_high_address_witness :
    (merge_record_data c10x c10y).address = c10y.address
      ∧ (merge_record_data c10x c10y).city = c10x.city :=
  ⟨(C10_merge_overwrites_high_address.1 c10x c10y).1 (by decide),
   (C10_merge_overwrites_high_address.1 c10x c10y).2.2.1 (by decide)⟩

/-- Counterexample to claim C5 as stated: X at `(18.52001, 73.85601)` and
Y at `(18.52000, 73.85602)` do *not* round to the same 5-decimal key
(they differ in the fifth decimal), so the spatial pass performs no merge
and both entities survive. -/
theorem C5_scenario_counterexample :
    coordKey c5X ≠ coordKey c5Y
      ∧ deduplicate_spatial [("X", c5X), ("Y", c5Y)]
        = ([("X", c5X), ("Y", c5Y)], 0) := by
  constructor
  · decide
  · decide

/-- Claim C5 (amended): the scenario's coordinates round to different
5-decimal keys, so no merge happens; with Y moved to `(18.520012,
73.856007)` — which *does* round to X's key — the two entities merge into
one that retains X's coordinates and HIGH accuracy. -/
theorem C5_scenario_amended :
    (deduplicate_spatial [("X", c5X), ("Y", c5Y)]
        = ([("X", c5X), ("Y", c5Y)], 0))
      ∧ coordKey c5Y2 = coordKey c5X
      ∧ deduplicate_spatial [("X", c5X), ("Y", c5Y2)]
        = ([("X", merge_record_data c5X c5Y2)], 1)
      ∧ (merge_record_data c5X c5Y2).lat = c5X.lat
      ∧ (merge_record_data c5X c5Y2).lng = c5X.lng
      ∧ (merge_record_data c5X c5Y2).accuracy = "HIGH" := by
  refine ⟨by decide, by decide, by decide, by decide, by decide, by decide⟩

/-- Counterexample to claim C4 as stated: two APPROXIMATE entities with
identical non-zero coordinates are *not* grouped (their rank score is 0),
so the pass merges nothing, although the claim says every such pair is
grouped and merged. -/
theorem C4_spatial_grouping_counterexample :
    c4a.lat ≠ 0 ∧ c4a.lng ≠ 0 ∧ c4b.lat ≠ 0 ∧ c4b.lng ≠ 0
      ∧ coordKey c4a = coordKey c4b
      ∧ c4a.accuracy = "APPROXIMATE" ∧ c4b.accuracy = "APPROXIMATE"
      ∧ deduplicate_spatial [("A", c4a), ("B", c4b)]
        = ([("A", c4a), ("B", c4b)], 0) := by
  refine ⟨by decide, by decide, by decide, by decide, by decide, by decide,
    by decide, by decide⟩

/-- Counterexample to claim C3 as stated: with the API key absent, `run`
returns at its first line — no phase executes, and the entity needing
resolution keeps accuracy `Pending` instead of being assigned `NoKey`. -/
theorem C3_no_key_counterexample :
    run_pipeline (fun _ _ => 0) false c3env
        [⟨"A", some [⟨"Apollo", "Addr", "Pune", "MH", "411001"⟩]⟩]
        [("APOLLO_411001", c3rec)]
      = [("APOLLO_411001", c3rec)]
      ∧ c3rec.needsUpdate = true
      ∧ c3rec.accuracy = "Pending"
      ∧ c3rec.accuracy ≠ "NoKey" := by
  refine ⟨rfl, rfl, rfl, by decide⟩

/-- Claim C3 (amended): with the API key absent `run` aborts immediately —
the registry passes through unchanged, independent of every oracle (so no
network call is made) and no phase executes.  The `NoKey` short-circuit
exists only inside `fetch_geocoding` itself, which such a run never
reaches. -/
theorem C3_no_key_amended :
    (∀ (ratio : String → String → ℚ) (env : GeoEnv)
        (files : List SourceFile) (st : Reg),
      run_pipeline ratio false env files st = st)
      ∧ (∀ (env : GeoEnv) (pe : Bool) (r : Rec),
        fetch_geocoding false env pe r = (⟨0, 0, "NoKey"⟩, pe)) :=
  ⟨fun _ _ _ _ => rfl, fun _ _ _ => rfl⟩

/-- Counterexample to claim C6 as stated: attempt 1 (the full composed
address) returns no result and attempt 2 (name prepended) returns a LOW
result at `(10, 20)` — yet `fetch_geocoding` discards attempt 2's LOW
result and falls through to the city-centroid fallback, returning
`APPROXIMATE (1, 2)` instead of the LOW result of the attempt that
succeeded. -/
theorem C6_low_fallback_counterexample :
    fetch_geocoding true c6env true c6rec = (⟨1, 2, "APPROXIMATE"⟩, true)
      ∧ c6env.geocode "12 Road, Pune, MH" (some "country:IN|postal_code:411001")
        = .noResult
      ∧ c6env.geocode "Alpha, 12 Road, Pune, MH"
          (some "country:IN|postal_code:411001")
        = .ok 10 20 "GEOMETRIC_CENTER"
      ∧ geocodeAccuracy "GEOMETRIC_CENTER" = "LOW"
      ∧ (⟨1, 2, "APPROXIMATE"⟩ : GeoResult) ≠ ⟨10, 20, "LOW"⟩ := by
  refine ⟨by decide, by decide, by decide, by decide, by decide⟩

/-- Claim C6 (amended): in the address-geocoding step only attempt 1's
LOW result is ever retained as the candidate — a LOW result of attempt 2
is always discarded: if both attempts return LOW, attempt 1's result is
returned; if attempt 1 returned no result, the cascade proceeds to the
city-centroid fallback (or Pending) even though attempt 2 returned
LOW. -/
theorem C6_geocode_fallback_amended (env : GeoEnv)
    (name fullAddress city state pin : String) (la ln la2 ln2 : ℚ)
    (lt lt2 : String) :
    (env.geocode fullAddress
          (some ("country:IN"
            ++ (if pin.length = 6 ∧ pyIsDigit pin then
                  "|postal_code:" ++ pin else ""))) = .ok la ln lt →
      geocodeAccuracy lt = "LOW" →
      env.geocode (name ++ ", " ++ fullAddress)
          (some ("country:IN"
            ++ (if pin.length = 6 ∧ pyIsDigit pin then
                  "|postal_code:" ++ pin else ""))) = .ok la2 ln2 lt2 →
      geocodeAccuracy lt2 = "LOW" →
      stratC env name fullAddress city state pin = ⟨la, ln, "LOW"⟩)
    ∧ (env.geocode fullAddress
          (some ("country:IN"
            ++ (if pin.length = 6 ∧ pyIsDigit pin then
                  "|postal_code:" ++ pin else ""))) = .noResult →
      env.geocode (name ++ ", " ++ fullAddress)
          (some ("country:IN"
            ++ (if pin.length = 6 ∧ pyIsDigit pin then
                  "|postal_code:" ++ pin else ""))) = .ok la2 ln2 lt2 →
      geocodeAccuracy lt2 = "LOW" →
      stratC env name fullAddress city state pin
        = (match cityCoords env city state with
           | some (a, b) => ⟨a, b, "APPROXIMATE"⟩
           | none => ⟨0, 0, "Pending"⟩)) := by
  constructor
  · intro h1 hlt h2 hlt2
    simp only [stratC, h1, hlt, h2]
    simp [geoAttempt2, h2, hlt2]
  · intro h1 h2 hlt2
    simp only [stratC, h1, geoAttempt2, h2, hlt2]
    simp [cityFallback]

/-- Witness for C6 (amended), at the concrete environment of the
counterexample: attempt 1 has no result, attempt 2 is LOW, and the step
returns the city centroid as APPROXIMATE. -/
theorem C6_geocode_fallback_amended_witness :
    stratC c6env "Alpha" "12 Road, Pune, MH" "Pune" "MH" "411001"
      = ⟨1, 2, "APPROXIMATE"⟩ := by
  have h := (C6_geocode_fallback_amended c6env "Alpha" "12 Road, Pune, MH"
    "Pune" "MH" "411001" 0 0 10 20 "" "GEOMETRIC_CENTER").2
    (by decide) (by decide) (by decide)
  rw [h]
  decide

theorem InvStrong_transfer {r r' : Rec} (h : InvStrong r)
    (hl : r'.lat = r.lat) (hg : r'.lng = r.lng)
    (ha : r'.accuracy = r.accuracy) : InvStrong r' := by
  unfold InvStrong at h ⊢
  rw [hl, hg, ha]
  exact h

theorem defaultRec_InvStrong : InvStrong defaultRec :=
  ⟨Iff.rfl, fun _ => Or.inl rfl⟩

theorem appendCompany_eq (e : Rec) (c : String) :
    appendCompany e c
      = { e with excluded_by :=
          if c ∈ e.excluded_by then e.excluded_by
          else e.excluded_by ++ [c] } := by
  unfold appendCompany
  split
  · cases e; rfl
  · cases e; rfl

theorem lookup?_some_mem {st : Reg} {k : String} {v : Rec}
    (h : lookup? st k = some v) : ∃ u, (u, v) ∈ st := by
  unfold lookup? at h
  cases hf : st.find? (fun p => p.1 == k) with
  | none => rw [hf] at h; simp at h
  | some q =>
    rw [hf] at h
    simp at h
    refine ⟨q.1, ?_⟩
    have hq : (q.1, v) = q := by cases q; simp_all
    rw [hq]
    exact List.mem_of_find?_eq_some hf

theorem lookupD_invariant {P : Rec → Prop} {st : Reg}
    (h : ∀ p ∈ st, P p.2) (hd : P defaultRec) (k : String) :
    P (lookupD st k) := by
  unfold lookupD lookup?
  cases hf : st.find? (fun p => p.1 == k) with
  | none => simpa using hd
  | some q =>
    have hm := List.mem_of_find?_eq_some hf
    simpa using h q hm

theorem applyGeoCase1_invariant (r : Rec) (res : GeoResult)
    (h : InvStrong r) : InvStrong (applyGeoCase1 r res) := by
  unfold applyGeoCase1
  by_cases h1 : res.lat ≠ 0 ∧ res.lng ≠ 0
  · rw [if_pos h1]
    exact ⟨⟨fun hz => absurd hz h1.1, fun hz => absurd hz h1.2⟩,
      fun hz => absurd hz h1.1⟩
  · rw [if_neg h1]; exact h

theorem applyGeoCase2_invariant (r : Rec) (h : InvStrong r) :
    InvStrong (applyGeoCase2 r) := by
  unfold applyGeoCase2
  by_cases h2 : r.accuracy = "Pending"
  · rw [if_pos h2]
    by_cases hl : r.lat ≠ 0
    · rw [if_pos hl]
      exact ⟨h.1, fun hz => absurd hz hl⟩
    · rw [if_neg hl]
      exact ⟨h.1, fun _ => Or.inl rfl⟩
  · rw [if_neg h2]; exact h

theorem applyGeoCase3_invariant (r : Rec) (h : InvStrong r) :
    InvStrong (applyGeoCase3 r) := by
  unfold applyGeoCase3
  by_cases h3 : ¬ (r.accuracy = "HIGH" ∨ r.accuracy = "LOW")
  · rw [if_pos h3]
    by_cases hz : r.lat = 0 ∨ r.lng = 0
    · rw [if_pos hz]
      exact ⟨h.1, fun _ => Or.inl rfl⟩
    · rw [if_neg hz]
      exact ⟨h.1, fun hl => h.2 hl⟩
  · rw [if_neg h3]; exact h

theorem applyGeoResult_invariant (r : Rec) (res : GeoResult)
    (h : InvStrong r) : InvStrong (applyGeoResult r res) :=
  applyGeoCase3_invariant _ (applyGeoCase2_invariant _
    (applyGeoCase1_invariant r res h))

theorem process_source_record_InvStrong (r : SrcRec) (c : String)
    (st : Reg) (h : ∀ p ∈ st, InvStrong p.2) :
    ∀ p ∈ (process_source_record r c st).2, InvStrong p.2 := by
  simp only [process_source_record]
  split
  · exact h
  · split
    · rename_i e heq
      have he : InvStrong e := by
        obtain ⟨u, hm⟩ := lookup?_some_mem heq
        exact h (u, e) hm
      split
      · apply forall_mem_dictSet h
        refine InvStrong_transfer he ?_ ?_ ?_ <;> rw [appendCompany_eq]
      · apply forall_mem_dictSet h
        refine InvStrong_transfer he ?_ ?_ ?_ <;> rw [appendCompany_eq] <;>
          dsimp only <;> split <;> rfl
    · apply forall_mem_dictSet h
      exact ⟨Iff.rfl, fun _ => Or.inl rfl⟩

theorem merge_sources_InvStrong (files : List SourceFile) (st : Reg)
    (h : RegInv InvStrong st) : RegInv InvStrong (merge_sources files st) := by
  unfold merge_sources
  split
  · exact h
  · intro p hp
    have hp1 := (List.mem_filter.mp hp).1
    refine foldl_rec ingestFile (fun s => RegInv InvStrong s.1) files
      (st, []) h ?_ p hp1
    intro s f _ hs
    unfold ingestFile
    cases f.records with
    | none => exact hs
    | some recs =>
      refine foldl_rec (ingestRecord f.company) (fun s => RegInv InvStrong s.1)
        recs s hs ?_
      intro s r _ hs
      rw [ingestRecord_eq]
      exact process_source_record_InvStrong r f.company s.1 hs

theorem merge_record_data_InvStrong {p s : Rec} (h : InvStrong p) :
    InvStrong (merge_record_data p s) :=
  InvStrong_transfer h (merge_lat p s) (merge_lng p s) (merge_accuracy p s)

theorem deduplicate_spatial_InvStrong (st : Reg) (h : RegInv InvStrong st) :
    RegInv InvStrong (deduplicate_spatial st).1 := by
  unfold deduplicate_spatial
  intro p hp
  have hp1 := (List.mem_filter.mp hp).1
  refine foldl_rec spatialStep (fun s => RegInv InvStrong s.1)
    (buildGroups st) (st, 0, []) h ?_ p hp1
  intro s g _ hs
  rcases s with ⟨st1, cnt, dels⟩
  simp only [spatialStep]
  split
  · exact hs
  · refine foldl_rec _ (fun st2 => RegInv InvStrong st2) _ st1 hs ?_
    intro st2 sec _ hst2
    apply forall_mem_dictSet hst2
    exact merge_record_data_InvStrong
      (lookupD_invariant hst2 defaultRec_InvStrong _)

theorem deduplicate_with_text_InvStrong (ratio : String → String → ℚ)
    (st : Reg) (h : RegInv InvStrong st) :
    RegInv InvStrong (deduplicate_with_text ratio st).1 := by
  unfold deduplicate_with_text
  intro p hp
  have hp1 := (List.mem_filter.mp hp).1
  refine foldl_rec (textStep ratio (bucketize st).1)
    (fun s => RegInv InvStrong s.1) (bucketize st).2 (st, 0, []) h ?_ p hp1
  intro s cid _ hs
  rcases s with ⟨st1, cnt, dels⟩
  simp only [textStep]
  cases hbm : (bestMaster ratio st1 (lookupD st1 cid).name
      (pinLookup (bucketize st).1 (pyStrip (lookupD st1 cid).pincode))).1 with
  | none => exact hs
  | some mid =>
    apply forall_mem_dictSet hs
    exact merge_record_data_InvStrong
      (lookupD_invariant hs defaultRec_InvStrong _)

theorem geocodeLoop_InvStrong (env : GeoEnv) (st : Reg)
    (h : RegInv InvStrong st) : RegInv InvStrong (geocodeLoop env st).1 := by
  unfold geocodeLoop
  refine foldl_rec (geocodeStep env) (fun s => RegInv InvStrong s.1)
    (pendingOf st) (st, true) h ?_
  intro s uid _ hs
  simp only [geocodeStep]
  apply forall_mem_dictSet hs
  exact applyGeoResult_invariant _ _
    (lookupD_invariant hs defaultRec_InvStrong uid)

/-- Claim C9 (amended): the ingestion phase, the geocoding loop (under
every oracle) and both deduplication passes preserve the *strengthened*
invariant in which the two coordinates are unset (0.0) together; the
strengthened invariant implies the claimed one.  The claimed invariant
alone is not preserved — see the counterexample. -/
theorem C9_invariant_preservation_amended :
    (∀ r : Rec, InvStrong r → InvClaim r)
      ∧ (∀ (files : List SourceFile) (st : Reg), RegInv InvStrong st →
        RegInv InvStrong (merge_sources files st))
      ∧ (∀ (env : GeoEnv) (st : Reg), RegInv InvStrong st →
        RegInv InvStrong (geocodeLoop env st).1)
      ∧ (∀ st : Reg, RegInv InvStrong st →
        RegInv InvStrong (deduplicate_spatial st).1)
      ∧ (∀ (ratio : String → String → ℚ) (st : Reg), RegInv InvStrong st →
        RegInv InvStrong (deduplicate_with_text ratio st).1) := by
  refine ⟨?_, merge_sources_InvStrong, geocodeLoop_InvStrong,
    deduplicate_spatial_InvStrong, deduplicate_with_text_InvStrong⟩
  intro r h
  constructor
  · intro hacc
    by_cases hl : r.lat = 0
    · rcases h.2 hl with h' | h' | h' <;> rcases hacc with ha | ha | ha <;>
        rw [ha] at h' <;> exact absurd h' (by decide)
    · exact ⟨hl, fun hg => hl (h.1.mpr hg)⟩
  · intro hz
    exact h.2 hz.1

/-- Counterexample to claim C9 as stated: the registry holding only a
`Pending` record at `(lat, lng) = (5, 0)` satisfies the claimed
invariant, but after the geocoding loop (all lookups failing) the record
has accuracy `LOW` with `lng = 0` — case 2 of the loop checks only `lat`
before upgrading to `LOW` — so the claimed invariant is not preserved. -/
theorem C9_invariant_counterexample :
    RegInv InvClaim [("ALPHA_411001", c9rec)]
      ∧ (geocodeLoop c9env [("ALPHA_411001", c9rec)]).1
        = [("ALPHA_411001",
            { c9rec with accuracy := "LOW", needsUpdate := false })]
      ∧ ¬ RegInv InvClaim (geocodeLoop c9env [("ALPHA_411001", c9rec)]).1 := by
  refine ⟨by decide, by decide, by decide⟩

/-- Witness for C9 (amended) at a concrete registry satisfying the
strengthened invariant. -/
theorem C9_invariant_preservation_amended_witness :
    RegInv InvStrong (geocodeLoop c9wenv [("ALPHA_411001", c9wrec)]).1
      ∧ RegInv InvStrong (deduplicate_spatial [("ALPHA_411001", c9wrec)]).1 :=
  ⟨C9_invariant_preservation_amended.2.2.1 c9wenv _ (by decide),
   C9_invariant_preservation_amended.2.2.2.1 _ (by decide)⟩

/-! ## Machinery for the deduplication fixed-point claim (C7)

The second deduplication run performs zero merges because (i) the spatial
pass leaves eligible entities with pairwise-distinct rounded coordinate
keys and merges never change the fields that grouping reads, and (ii) the
text pass deletes only candidates and modifies only masters, preserving
every field that bucketing and similarity read. -/
/-- With duplicate-free keys, a member entry is what lookup finds. -/
theorem lookup?_of_mem_nodup {st : Reg} {u : String} {r : Rec}
    (hnd : (keysOf st).Nodup) (hm : (u, r) ∈ st) :
    lookup? st u = some r := by
  induction st with
  | nil => simp at hm
  | cons q qs ih =>
    cases hm with
    | head =>
      unfold lookup?
      rw [List.find?_cons_of_pos _ (by simp)]
      rfl
    | tail _ hm =>
      have hq : ¬ (q.1 = u) := by
        intro he
        have hk : u ∈ keysOf qs := List.mem_map.mpr ⟨(u, r), hm, rfl⟩
        rw [keysOf, List.map_cons, List.nodup_cons] at hnd
        exact hnd.1 (he ▸ hk)
      unfold lookup? at ih ⊢
      rw [List.find?_cons_of_neg _ (by simpa using hq)]
      apply ih ?_ hm
      rw [keysOf, List.map_cons, List.nodup_cons] at hnd
      exact hnd.2

/-- What lookup finds is a member entry. -/
theorem lookup?_mem {st : Reg} {u : String} {r : Rec}
    (h : lookup? st u = some r) : (u, r) ∈ st := by
  unfold lookup? at h
  cases hf : st.find? (fun p => p.1 == u) with
  | none => rw [hf] at h; simp at h
  | some q =>
    rw [hf] at h
    simp at h
    have hq := List.find?_some hf
    simp at hq
    have hm := List.mem_of_find?_eq_some hf
    have : (u, r) = q := by
      cases q
      simp_all
    rw [this]
    exact hm

/-- Filtering away other entries does not change a key's lookup, as long
as the predicate keeps every entry carrying that key. -/
theorem lookup?_filter {st : Reg} {u : String} {q : String × Rec → Bool}
    (h : ∀ r, (u, r) ∈ st → q (u, r)) :
    lookup? (st.filter q) u = lookup? st u := by
  induction st with
  | nil => simp
  | cons p ps ih =>
    by_cases hp : p.1 = u
    · have hq : q p = true := by
        have : p = (u, p.2) := by cases p; simp_all
        rw [this]
        exact h p.2 (by rw [← this]; simp)
      unfold lookup?
      rw [List.filter_cons_of_pos hq, List.find?_cons_of_pos _ (by simpa using hp),
        List.find?_cons_of_pos _ (by simpa using hp)]
    · have ih' := ih (fun r hm => h r (by simp [hm]))
      unfold lookup? at ih' ⊢
      by_cases hq : q p = true
      · rw [List.filter_cons_of_pos hq,
          List.find?_cons_of_neg _ (by simpa using hp)]
        rw [List.find?_cons_of_neg _ (by simpa using hp)]
        exact ih'
      · rw [List.filter_cons_of_neg (by simpa using hq),
          List.find?_cons_of_neg _ (by simpa using hp)]
        exact ih'

theorem dictSet_eq_map_of_mem {st : Reg} {k : String} (v : Rec)
    (h : k ∈ keysOf st) :
    dictSet st k v = st.map (fun p => if p.1 == k then (k, v) else p) := by
  unfold dictSet
  rw [if_pos]
  obtain ⟨p, hp, he⟩ := List.mem_map.mp h
  exact List.any_eq_true.mpr ⟨p, hp, by simpa using he⟩

theorem sameCore_refl (r : Rec) : sameCore r r := ⟨rfl, rfl, rfl, rfl⟩

theorem sameCore_trans {a b c : Rec} (h1 : sameCore a b) (h2 : sameCore b c) :
    sameCore a c :=
  ⟨h2.1.trans h1.1, h2.2.1.trans h1.2.1, h2.2.2.1.trans h1.2.2.1,
    h2.2.2.2.trans h1.2.2.2⟩

theorem merge_sameCore (p s : Rec) : sameCore p (merge_record_data p s) :=
  ⟨merge_name p s, merge_accuracy p s, merge_lat p s, merge_lng p s⟩

theorem CoreRel_refl (st : Reg) : CoreRel st st := by
  induction st with
  | nil => exact List.Forall₂.nil
  | cons p ps ih => exact List.Forall₂.cons ⟨rfl, sameCore_refl p.2⟩ ih

theorem CoreRel_keys {st st' : Reg} (h : CoreRel st st') :
    keysOf st = keysOf st' := by
  induction h with
  | nil => rfl
  | cons hpq _ ih =>
    simp only [keysOf, List.map_cons] at ih ⊢
    rw [hpq.1, ih]

theorem CoreRel_lookup {st st' : Reg} (h : CoreRel st st') {u : String}
    {r : Rec} (hl : lookup? st u = some r) :
    ∃ r', lookup? st' u = some r' ∧ sameCore r r' := by
  induction h with
  | nil => simp [lookup?] at hl
  | cons hpq hrest ih =>
    rename_i p q ps qs
    by_cases hp : p.1 = u
    · unfold lookup? at hl ⊢
      rw [List.find?_cons_of_pos _ (by simpa using hp)] at hl
      rw [List.find?_cons_of_pos _ (by simpa using (hpq.1 ▸ hp))]
      simp at hl
      exact ⟨q.2, by simp, hl ▸ hpq.2⟩
    · unfold lookup? at hl ⊢
      rw [List.find?_cons_of_neg _ (by simpa using hp)] at hl
      rw [List.find?_cons_of_neg _
        (by simpa using (show ¬ (q.1 = u) from hpq.1 ▸ hp))]
      exact ih hl

theorem CoreRel_lookup_rev {st st' : Reg} (h : CoreRel st st') {u : String}
    {r' : Rec} (hl : lookup? st' u = some r') :
    ∃ r, lookup? st u = some r ∧ sameCore r r' := by
  induction h with
  | nil => simp [lookup?] at hl
  | cons hpq hrest ih =>
    rename_i p q ps qs
    by_cases hp : p.1 = u
    · unfold lookup? at hl ⊢
      rw [List.find?_cons_of_pos _ (by simpa using (hpq.1 ▸ hp))] at hl
      rw [List.find?_cons_of_pos _ (by simpa using hp)]
      simp at hl
      exact ⟨p.2, by simp, hl ▸ hpq.2⟩
    · unfold lookup? at hl ⊢
      rw [List.find?_cons_of_neg _
        (by simpa using (show ¬ (q.1 = u) from hpq.1 ▸ hp))] at hl
      rw [List.find?_cons_of_neg _ (by simpa using hp)]
      exact ih hl

theorem CoreRel_dictSet {st st' : Reg} (h : CoreRel st st') {u : String}
    {v : Rec} (hu : u ∈ keysOf st')
    (hv : ∀ r₀, (u, r₀) ∈ st → sameCore r₀ v) :
    CoreRel st (dictSet st' u v) := by
  rw [dictSet_eq_map_of_mem v hu]
  clear hu
  induction h with
  | nil => exact List.Forall₂.nil
  | cons hpq hrest ih =>
    rename_i p q ps qs
    rw [List.map_cons]
    refine List.Forall₂.cons ?_ (ih (fun r₀ hm => hv r₀ (by simp [hm])))
    by_cases hq : q.1 = u
    · rw [if_pos (by simpa using hq)]
      refine ⟨hpq.1.trans hq, ?_⟩
      have hpu : p.1 = u := hpq.1.trans hq
      have hm : (u, p.2) ∈ (p :: ps : Reg) := by
        have : (u, p.2) = p := by cases p; simp_all
        rw [this]; simp
      exact hv p.2 hm
    · rw [if_neg (by simpa using hq)]
      exact hpq

section AListLemmas

variable {κ ν : Type _} [BEq κ] [LawfulBEq κ]

theorem find?_entry_none_of_not_any (l : List (κ × ν)) (k : κ)
    (hany : ¬ (l.any fun p => p.1 == k) = true) :
    l.find? (fun p => p.1 == k) = none := by
  rw [List.find?_eq_none]
  intro x hx hpx
  exact hany (List.any_eq_true.mpr ⟨x, hx, hpx⟩)

theorem find?_entry_append_single_self (l : List (κ × ν)) (k : κ) (v : ν)
    (hnone : l.find? (fun p => p.1 == k) = none) :
    (l ++ [(k, v)]).find? (fun p => p.1 == k) = some (k, v) := by
  induction l with
  | nil => simp
  | cons q qs ih =>
    by_cases hq : q.1 = k
    · simp [List.find?_cons, hq] at hnone
    · have hq' : ((q.1 == k) : Bool) = false := by simp [hq]
      simp only [List.cons_append, List.find?_cons, hq'] at hnone ⊢
      exact ih hnone

theorem find?_entry_append_single_ne (l : List (κ × ν)) (k k' : κ) (v : ν)
    (h : k' ≠ k) :
    (l ++ [(k, v)]).find? (fun p => p.1 == k')
      = l.find? (fun p => p.1 == k') := by
  induction l with
  | nil => simp [List.find?_cons, Ne.symm h]
  | cons q qs ih =>
    by_cases hq' : q.1 = k'
    · simp [List.find?_cons, hq']
    · simp [List.find?_cons, hq', ih]

theorem find?_entry_map_self (l : List (κ × ν)) (k : κ) (f : κ × ν → ν) :
    (l.map (fun p => if p.1 == k then (k, f p) else p)).find?
        (fun p => p.1 == k)
      = (l.find? (fun p => p.1 == k)).map (fun p => (k, f p)) := by
  have hpred : ((fun p => p.1 == k) ∘
        fun p : κ × ν => if p.1 == k then (k, f p) else p)
      = (fun p : κ × ν => p.1 == k) := by
    funext p; by_cases hp : p.1 = k <;> simp [hp]
  rw [List.find?_map, hpred]
  cases hfind : l.find? (fun p => p.1 == k) with
  | none => simp
  | some q =>
    have hq := List.find?_some hfind
    simp only [beq_iff_eq] at hq
    simp [hq]

theorem find?_entry_map_ne (l : List (κ × ν)) (k k' : κ) (f : κ × ν → ν)
    (h : k' ≠ k) :
    (l.map (fun p => if p.1 == k then (k, f p) else p)).find?
        (fun p => p.1 == k')
      = l.find? (fun p => p.1 == k') := by
  have hpred : ((fun p => p.1 == k') ∘
        fun p : κ × ν => if p.1 == k then (k, f p) else p)
      = (fun p : κ × ν => p.1 == k') := by
    funext p; by_cases hp : p.1 = k <;> simp [hp]
  rw [List.find?_map, hpred]
  cases hfind : l.find? (fun p => p.1 == k') with
  | none => simp
  | some q =>
    have hq := List.find?_some hfind
    simp only [beq_iff_eq] at hq
    have hqk : ¬ q.1 = k := by rw [hq]; exact h
    simp [hqk]

theorem map_fst_entry_map (l : List (κ × ν)) (k : κ) (f : κ × ν → ν) :
    (l.map (fun p => if p.1 == k then (k, f p) else p)).map Prod.fst
      = l.map Prod.fst := by
  rw [List.map_map]
  apply List.map_congr_left
  intro p _
  by_cases hp : p.1 = k <;> simp [hp]

theorem find?_entry_of_mem_nodup {l : List (κ × ν)} {k : κ} {v : ν}
    (hnd : (l.map Prod.fst).Nodup) (hm : (k, v) ∈ l) :
    l.find? (fun p => p.1 == k) = some (k, v) := by
  induction l with
  | nil => simp at hm
  | cons q qs ih =>
    cases hm with
    | head =>
      rw [List.find?_cons_of_pos _ (by simp)]
    | tail _ hm =>
      have hq : ¬ (q.1 = k) := by
        intro he
        have hk : k ∈ qs.map Prod.fst := List.mem_map.mpr ⟨(k, v), hm, rfl⟩
        rw [List.map_cons, List.nodup_cons] at hnd
        exact hnd.1 (he ▸ hk)
      rw [List.find?_cons_of_neg _ (by simpa using hq)]
      apply ih ?_ hm
      rw [List.map_cons, List.nodup_cons] at hnd
      exact hnd.2

end AListLemmas

/-! ### Spatial grouping characterization -/
theorem groupLookup_groupAppend_self (gs : List ((ℤ × ℤ) × List String))
    (k : ℤ × ℤ) (u : String) :
    groupLookup (groupAppend gs k u) k = groupLookup gs k ++ [u] := by
  unfold groupAppend groupLookup
  split
  · rename_i hany
    rw [find?_entry_map_self]
    obtain ⟨g, hg, hgk⟩ := List.any_eq_true.mp hany
    cases hf : gs.find? (fun g => g.1 == k) with
    | none =>
      have : (gs.find? (fun g => g.1 == k)).isSome := by
        rw [List.find?_isSome]; exact ⟨g, hg, hgk⟩
      rw [hf] at this; simp at this
    | some g0 => simp
  · rename_i hany
    rw [find?_entry_append_single_self _ _ _
      (find?_entry_none_of_not_any _ _ hany)]
    rw [find?_entry_none_of_not_any _ _ hany]
    simp

theorem groupLookup_groupAppend_ne (gs : List ((ℤ × ℤ) × List String))
    (k k' : ℤ × ℤ) (u : String) (h : k' ≠ k) :
    groupLookup (groupAppend gs k u) k' = groupLookup gs k' := by
  unfold groupAppend groupLookup
  split
  · rw [find?_entry_map_ne _ _ _ _ h]
  · rw [find?_entry_append_single_ne _ _ _ _ h]

theorem buildGroups_aux (st : Reg) (k : ℤ × ℤ) (l : List (String × Rec)) :
    ∀ gs : List ((ℤ × ℤ) × List String),
      groupLookup
          (l.foldl
            (fun gs p =>
              if spatialEligible st p then groupAppend gs (coordKey p.2) p.1
              else gs) gs) k
        = groupLookup gs k
          ++ (l.filter
              (fun p => spatialEligible st p && (coordKey p.2 == k))).map
            Prod.fst := by
  induction l with
  | nil => simp
  | cons p ps ih =>
    intro gs
    rw [List.foldl_cons]
    by_cases he : spatialEligible st p
    · rw [if_pos he]
      by_cases hk : coordKey p.2 = k
      · rw [ih, hk, groupLookup_groupAppend_self,
          List.filter_cons_of_pos (by simp [he, hk])]
        simp
      · rw [ih, groupLookup_groupAppend_ne _ _ _ _ (fun hh => hk hh.symm),
          List.filter_cons_of_neg (by simp [he, hk])]
    · rw [if_neg he, ih, List.filter_cons_of_neg (by simp [he])]

theorem buildGroups_lookup (st : Reg) (k : ℤ × ℤ) :
    groupLookup (buildGroups st) k
      = (st.filter
          (fun p => spatialEligible st p && (coordKey p.2 == k))).map
        Prod.fst := by
  unfold buildGroups
  rw [buildGroups_aux]
  simp [groupLookup]

theorem buildGroups_keys_nodup (st : Reg) :
    ((buildGroups st).map Prod.fst).Nodup := by
  unfold buildGroups
  refine foldl_rec
    (fun gs p =>
      if spatialEligible st p then groupAppend gs (coordKey p.2) p.1 else gs)
    (fun gs => (gs.map Prod.fst).Nodup) st [] (by simp) ?_
  intro gs p _ hnd
  dsimp only
  by_cases he : spatialEligible st p
  · rw [if_pos he]
    unfold groupAppend
    split
    · rwa [map_fst_entry_map]
    · rename_i hany
      rw [List.map_append]
      simp only [List.map_cons, List.map_nil]
      rw [List.nodup_append]
      refine ⟨hnd, by simp, ?_⟩
      intro a ha
      simp only [List.mem_singleton]
      intro hae
      subst hae
      obtain ⟨g, hg, hge⟩ := List.mem_map.mp ha
      exact hany (List.any_eq_true.mpr ⟨g, hg, by simpa using hge⟩)
  · rwa [if_neg he]

theorem mem_buildGroups_eq_lookup (st : Reg) {k : ℤ × ℤ} {G : List String}
    (hm : (k, G) ∈ buildGroups st) : groupLookup (buildGroups st) k = G := by
  unfold groupLookup
  rw [find?_entry_of_mem_nodup (buildGroups_keys_nodup st) hm]
  rfl

theorem spatialEligible_eq_eligRec {st : Reg} {p : String × Rec}
    (hnd : (keysOf st).Nodup) (hm : p ∈ st) :
    spatialEligible st p = eligRec p.2 := by
  unfold spatialEligible eligRec get_record_rank_score
  have hl : lookupD st p.1 = p.2 := by
    have : lookup? st p.1 = some p.2 :=
      lookup?_of_mem_nodup hnd (by cases p; exact hm)
    unfold lookupD
    rw [this]
    rfl
  rw [hl]

theorem eligRec_congr {r r' : Rec} (h : sameCore r r') :
    eligRec r' = eligRec r := by
  unfold eligRec
  rw [h.2.1, h.2.2.1, h.2.2.2]

theorem coordKey_congr {r r' : Rec} (h : sameCore r r') :
    coordKey r' = coordKey r := by
  unfold coordKey
  rw [h.2.2.1, h.2.2.2]

theorem eligUids_subset_keys (st : Reg) {u : String} (h : u ∈ eligUids st) :
    u ∈ keysOf st := by
  obtain ⟨p, hp, he⟩ := List.mem_map.mp h
  exact List.mem_map.mpr ⟨p, (List.mem_filter.mp hp).1, he⟩

theorem mem_group_sub_elig (st : Reg) (k : ℤ × ℤ) {u : String}
    (h : u ∈ groupLookup (buildGroups st) k) : u ∈ eligUids st := by
  rw [buildGroups_lookup] at h
  obtain ⟨p, hp, he⟩ := List.mem_map.mp h
  have hf := List.mem_filter.mp hp
  refine List.mem_map.mpr ⟨p, List.mem_filter.mpr ⟨hf.1, ?_⟩, he⟩
  have := hf.2
  simp only [Bool.and_eq_true] at this
  exact this.1

theorem groupLookup_ne_nil_mem (gs : List ((ℤ × ℤ) × List String))
    (k : ℤ × ℤ) (h : groupLookup gs k ≠ []) : (k, groupLookup gs k) ∈ gs := by
  unfold groupLookup at h ⊢
  cases hf : gs.find? (fun g => g.1 == k) with
  | none => rw [hf] at h; simp at h
  | some g =>
    have hk := List.find?_some hf
    simp only [beq_iff_eq] at hk
    have hm := List.mem_of_find?_eq_some hf
    have he : (k, (Option.map Prod.snd (some g)).getD []) = g := by
      cases g; simp_all
    rw [he]
    exact hm

theorem two_le_length_of_mem_ne {l : List String} {u v : String}
    (hu : u ∈ l) (hv : v ∈ l) (hne : u ≠ v) : 2 ≤ l.length := by
  cases l with
  | nil => simp at hu
  | cons x xs =>
    cases xs with
    | nil =>
      simp at hu hv
      exact absurd (hu.trans hv.symm) hne
    | cons y ys =>
      simp only [List.length_cons]
      omega

theorem spatial_dels_mono (gs : List ((ℤ × ℤ) × List String))
    (s : Reg × Nat × List String) :
    ∀ u ∈ s.2.2, u ∈ (gs.foldl spatialStep s).2.2 := by
  refine foldl_rec spatialStep (fun s' => ∀ u ∈ s.2.2, u ∈ s'.2.2) gs s
    (fun u hu => hu) ?_
  intro s' g _ hs u hu
  rcases s' with ⟨st1, c, d⟩
  simp only [spatialStep]
  split
  · exact hs u hu
  · simp only
    exact List.mem_append.mpr (Or.inl (hs u hu))

theorem spatial_group_tail_deleted (gs : List ((ℤ × ℤ) × List String)) :
    ∀ (s : Reg × Nat × List String) (k : ℤ × ℤ) (G : List String),
      (k, G) ∈ gs → 2 ≤ G.length →
      ∃ prim, prim ∈ G ∧
        ∀ u ∈ G, u ≠ prim → u ∈ (gs.foldl spatialStep s).2.2 := by
  induction gs with
  | nil => simp
  | cons g rest ih =>
    intro s k G hm hlen
    rw [List.foldl_cons]
    cases hm with
    | head =>
      rcases s with ⟨st1, c, d⟩
      have hstep : spatialStep (st1, c, d) (k, G)
          = ((stableSort (rankLe st1) G).tail.foldl
              (mergeInto ((stableSort (rankLe st1) G).headD "")) st1,
            c + (stableSort (rankLe st1) G).tail.length,
            d ++ (stableSort (rankLe st1) G).tail) := by
        simp only [spatialStep]
        rw [if_neg (by omega)]
      rw [hstep]
      have hslen := length_stableSort (rankLe st1) G
      have hsne : stableSort (rankLe st1) G ≠ [] := by
        intro hnil
        rw [hnil] at hslen
        simp at hslen
        omega
      obtain ⟨x, xs, hx⟩ := List.exists_cons_of_ne_nil hsne
      refine ⟨x, ?_, ?_⟩
      · have hxm : x ∈ stableSort (rankLe st1) G := by
          rw [hx]; simp
        exact (mem_stableSort _ _ _).mp hxm
      · intro u hu hne
        apply spatial_dels_mono rest _
        simp only
        have hus : u ∈ stableSort (rankLe st1) G :=
          (mem_stableSort _ _ _).mpr hu
        rw [hx] at hus
        rcases List.mem_cons.mp hus with hus | hus
        · exact absurd hus hne
        · rw [hx]
          exact List.mem_append.mpr (Or.inr hus)
    | tail _ hm =>
      exact ih (spatialStep s g) k G hm hlen

/-- The main invariant of the spatial merge fold: the registry stays
entry-wise core-equal to the input, lookups at uids outside the eligible
set are untouched, and only eligible uids are marked for deletion. -/
theorem spatial_fold_invariant (st₀ : Reg) (hnd : (keysOf st₀).Nodup) :
    CoreRel st₀ ((buildGroups st₀).foldl spatialStep (st₀, 0, [])).1
      ∧ (∀ u, u ∉ eligUids st₀ →
        lookup? ((buildGroups st₀).foldl spatialStep (st₀, 0, [])).1 u
          = lookup? st₀ u)
      ∧ (∀ u ∈ ((buildGroups st₀).foldl spatialStep (st₀, 0, [])).2.2,
        u ∈ eligUids st₀) := by
  refine foldl_rec spatialStep
    (fun s => CoreRel st₀ s.1
      ∧ (∀ u, u ∉ eligUids st₀ → lookup? s.1 u = lookup? st₀ u)
      ∧ (∀ u ∈ s.2.2, u ∈ eligUids st₀))
    (buildGroups st₀) (st₀, 0, [])
    ⟨CoreRel_refl st₀, fun _ _ => rfl, by simp⟩ ?_
  intro s g hg hs
  rcases s with ⟨st1, c, d⟩
  obtain ⟨hcore, hlook, hdels⟩ := hs
  rcases g with ⟨k, G⟩
  simp only [spatialStep]
  split
  · exact ⟨hcore, hlook, hdels⟩
  · rename_i hlen
    simp only
    have hGsub : ∀ u ∈ G, u ∈ eligUids st₀ := by
      intro u hu
      have hGl : groupLookup (buildGroups st₀) k = G :=
        mem_buildGroups_eq_lookup st₀ hg
      exact mem_group_sub_elig st₀ k (hGl ▸ hu)
    have hprim : (stableSort (rankLe st1) G).headD "" ∈ G := by
      have hslen := length_stableSort (rankLe st1) G
      have hsne : stableSort (rankLe st1) G ≠ [] := by
        intro hnil
        rw [hnil] at hslen
        simp at hslen
        omega
      obtain ⟨x, xs, hx⟩ := List.exists_cons_of_ne_nil hsne
      have hxm : x ∈ stableSort (rankLe st1) G := by rw [hx]; simp
      have := (mem_stableSort _ _ _).mp hxm
      rw [hx]
      simpa using this
    have hinner := foldl_rec
      (mergeInto ((stableSort (rankLe st1) G).headD ""))
      (fun st2 => CoreRel st₀ st2
        ∧ (∀ u, u ∉ eligUids st₀ → lookup? st2 u = lookup? st₀ u))
      ((stableSort (rankLe st1) G).tail) st1 ⟨hcore, hlook⟩ ?_
    · refine ⟨hinner.1, hinner.2, ?_⟩
      intro u hu
      rcases List.mem_append.mp hu with hu | hu
      · exact hdels u hu
      · exact hGsub u ((mem_stableSort _ _ _).mp (List.mem_of_mem_tail hu))
    intro st2 sec _ hst2
    unfold mergeInto
    constructor
    · apply CoreRel_dictSet hst2.1
      · rw [← CoreRel_keys hst2.1]
        exact eligUids_subset_keys st₀ (hGsub _ hprim)
      · intro r₀ hm
        have hl0 : lookup? st₀ ((stableSort (rankLe st1) G).headD "")
            = some r₀ := lookup?_of_mem_nodup hnd hm
        obtain ⟨r2, hl2, hc2⟩ := CoreRel_lookup hst2.1 hl0
        have hD : lookupD st2 ((stableSort (rankLe st1) G).headD "") = r2 := by
          unfold lookupD
          rw [hl2]
          rfl
        rw [hD]
        exact sameCore_trans hc2 (merge_sameCore r2 _)
    · intro u hu
      have hne : u ≠ (stableSort (rankLe st1) G).headD "" := by
        intro he
        exact hu (he ▸ hGsub _ hprim)
      rw [lookup?_dictSet_ne _ _ _ _ hne]
      exact hst2.2 u hu

theorem spatial_separated (st₀ : Reg) (hnd : (keysOf st₀).Nodup) :
    SpatialSeparated (deduplicate_spatial st₀).1 := by
  obtain ⟨hcore, hlook, hdels⟩ := spatial_fold_invariant st₀ hnd
  unfold SpatialSeparated deduplicate_spatial
  simp only
  rw [List.pairwise_iff_forall_sublist]
  intro a b hsub heq
  have hndF : (keysOf ((buildGroups st₀).foldl spatialStep
      (st₀, 0, [])).1).Nodup := by
    rw [← CoreRel_keys hcore]
    exact hnd
  have hsub1 : List.Sublist [a, b] (((buildGroups st₀).foldl spatialStep
      (st₀, 0, [])).1.filter
        (fun p => !(((buildGroups st₀).foldl spatialStep
          (st₀, 0, [])).2.2.contains p.1))) :=
    hsub.trans (List.filter_sublist _)
  have hsubF : List.Sublist [a, b] ((buildGroups st₀).foldl spatialStep
      (st₀, 0, [])).1 :=
    hsub1.trans (List.filter_sublist _)
  have hne : a.1 ≠ b.1 := by
    have hkeys : List.Sublist [a.1, b.1] (keysOf ((buildGroups st₀).foldl
        spatialStep (st₀, 0, [])).1) := by
      have := hsubF.map Prod.fst
      simpa using this
    exact List.pairwise_iff_forall_sublist.mp hndF hkeys
  have ha := List.mem_filter.mp (hsub.subset (show a ∈ [a, b] by simp))
  have hb := List.mem_filter.mp (hsub.subset (show b ∈ [a, b] by simp))
  have haf := List.mem_filter.mp ha.1
  have hbf := List.mem_filter.mp hb.1
  have haNdel : a.1 ∉ ((buildGroups st₀).foldl spatialStep
      (st₀, 0, [])).2.2 := by
    have hx := haf.2
    intro hmem
    simp [hmem] at hx
  have hbNdel : b.1 ∉ ((buildGroups st₀).foldl spatialStep
      (st₀, 0, [])).2.2 := by
    have hx := hbf.2
    intro hmem
    simp [hmem] at hx
  have hlaF : lookup? ((buildGroups st₀).foldl spatialStep
      (st₀, 0, [])).1 a.1 = some a.2 :=
    lookup?_of_mem_nodup hndF haf.1
  have hlbF : lookup? ((buildGroups st₀).foldl spatialStep
      (st₀, 0, [])).1 b.1 = some b.2 :=
    lookup?_of_mem_nodup hndF hbf.1
  obtain ⟨ra, hla, hca⟩ := CoreRel_lookup_rev hcore hlaF
  obtain ⟨rb, hlb, hcb⟩ := CoreRel_lookup_rev hcore hlbF
  have hmemA : (a.1, ra) ∈ st₀ := lookup?_mem hla
  have hmemB : (b.1, rb) ∈ st₀ := lookup?_mem hlb
  have hain : a.1 ∈ groupLookup (buildGroups st₀) (coordKey a.2) := by
    rw [buildGroups_lookup]
    refine List.mem_map.mpr ⟨(a.1, ra), List.mem_filter.mpr ⟨hmemA, ?_⟩, rfl⟩
    rw [spatialEligible_eq_eligRec hnd hmemA]
    simp only [Bool.and_eq_true, beq_iff_eq]
    exact ⟨by rw [← eligRec_congr hca]; exact ha.2, (coordKey_congr hca).symm⟩
  have hbin : b.1 ∈ groupLookup (buildGroups st₀) (coordKey a.2) := by
    rw [buildGroups_lookup]
    refine List.mem_map.mpr ⟨(b.1, rb), List.mem_filter.mpr ⟨hmemB, ?_⟩, rfl⟩
    rw [spatialEligible_eq_eligRec hnd hmemB]
    simp only [Bool.and_eq_true, beq_iff_eq]
    exact ⟨by rw [← eligRec_congr hcb]; exact hb.2,
      (coordKey_congr hcb).symm.trans heq.symm⟩
  have hGlen : 2 ≤ (groupLookup (buildGroups st₀) (coordKey a.2)).length :=
    two_le_length_of_mem_ne hain hbin hne
  have hGmem : (coordKey a.2, groupLookup (buildGroups st₀) (coordKey a.2))
      ∈ buildGroups st₀ :=
    groupLookup_ne_nil_mem _ _ (List.ne_nil_of_mem hain)
  obtain ⟨prim, hprimG, hdel⟩ := spatial_group_tail_deleted
    (buildGroups st₀) (st₀, 0, []) (coordKey a.2) _ hGmem hGlen
  by_cases hap : a.1 = prim
  · exact hbNdel (hdel b.1 hbin (fun hbp => hne (hap.trans hbp.symm)))
  · exact haNdel (hdel a.1 hain hap)

theorem spatial_noop (st : Reg) (hnd : (keysOf st).Nodup)
    (hsep : SpatialSeparated st) : deduplicate_spatial st = (st, 0) := by
  have hsmall : ∀ g ∈ buildGroups st, g.2.length < 2 := by
    intro g hg
    rcases g with ⟨k, G⟩
    by_contra hge
    push_neg at hge
    dsimp only at hge
    have hGl : groupLookup (buildGroups st) k = G :=
      mem_buildGroups_eq_lookup st hg
    rw [buildGroups_lookup] at hGl
    have hfc : st.filter (fun p => spatialEligible st p && (coordKey p.2 == k))
        = (st.filter (fun p => eligRec p.2)).filter
            (fun p => coordKey p.2 == k) := by
      rw [List.filter_filter]
      apply List.filter_congr
      intro p hp
      rw [spatialEligible_eq_eligRec hnd hp, Bool.and_comm]
    rw [hfc] at hGl
    have hlen2 : 2 ≤ ((st.filter (fun p => eligRec p.2)).filter
        (fun p => coordKey p.2 == k)).length := by
      have : G.length = ((st.filter (fun p => eligRec p.2)).filter
          (fun p => coordKey p.2 == k)).length := by
        rw [← hGl]
        simp
      omega
    obtain ⟨p, q, t, hpq⟩ : ∃ p q t,
        (st.filter (fun p => eligRec p.2)).filter
          (fun p => coordKey p.2 == k) = p :: q :: t := by
      cases h1 : (st.filter (fun p => eligRec p.2)).filter
          (fun p => coordKey p.2 == k) with
      | nil => rw [h1] at hlen2; simp at hlen2
      | cons p rest =>
        cases rest with
        | nil => rw [h1] at hlen2; simp at hlen2
        | cons q t => exact ⟨p, q, t, rfl⟩
    have hsubk : List.Sublist [p, q] ((st.filter (fun p => eligRec p.2)).filter
        (fun p => coordKey p.2 == k)) := by
      rw [hpq]
      exact (List.nil_sublist t).cons₂ q |>.cons₂ p
    have hsubl : List.Sublist [p, q] (st.filter (fun p => eligRec p.2)) :=
      hsubk.trans (List.filter_sublist _)
    have hrel := List.pairwise_iff_forall_sublist.mp hsep hsubl
    have hp' : coordKey p.2 = k := by
      have := (List.mem_filter.mp (hsubk.subset (show p ∈ [p, q] by simp))).2
      simpa using this
    have hq' : coordKey q.2 = k := by
      have := (List.mem_filter.mp (hsubk.subset (show q ∈ [p, q] by simp))).2
      simpa using this
    exact hrel (hp'.trans hq'.symm)
  have hfold : ∀ (gs : List ((ℤ × ℤ) × List String)),
      (∀ g ∈ gs, g.2.length < 2) →
      ∀ s : Reg × Nat × List String, gs.foldl spatialStep s = s := by
    intro gs
    induction gs with
    | nil => intro _ s; rfl
    | cons g rest ih =>
      intro hsm s
      rw [List.foldl_cons]
      have hid : spatialStep s g = s := by
        rcases s with ⟨st1, c, d⟩
        simp only [spatialStep]
        rw [if_pos (hsm g (by simp))]
      rw [hid]
      exact ih (fun g' hg' => hsm g' (by simp [hg'])) s
  unfold deduplicate_spatial
  simp only
  rw [hfold _ hsmall]
  simp

/-- Entities the spatial pass does not group (rank 0 or a zero
coordinate) are retained with their record unchanged. -/
theorem spatial_untouched (st₀ : Reg) (hnd : (keysOf st₀).Nodup)
    {u : String} {r : Rec} (hl : lookup? st₀ u = some r)
    (hne : eligRec r = false) :
    lookup? (deduplicate_spatial st₀).1 u = some r := by
  obtain ⟨hcore, hlook, hdels⟩ := spatial_fold_invariant st₀ hnd
  have hu_not_elig : u ∉ eligUids st₀ := by
    intro hu
    obtain ⟨p, hp, he⟩ := List.mem_map.mp hu
    have hf := List.mem_filter.mp hp
    have hlp : lookup? st₀ p.1 = some p.2 :=
      lookup?_of_mem_nodup hnd (by cases p; exact hf.1)
    rw [he] at hlp
    have hpr : p.2 = r := Option.some.inj (hlp.symm.trans hl)
    have helig := hf.2
    rw [spatialEligible_eq_eligRec hnd hf.1, hpr, hne] at helig
    exact absurd helig (by simp)
  unfold deduplicate_spatial
  simp only
  rw [lookup?_filter]
  · rw [hlook u hu_not_elig]
    exact hl
  · intro r' _
    have hnm : u ∉ ((buildGroups st₀).foldl spatialStep (st₀, 0, [])).2.2 :=
      fun hmem => hu_not_elig (hdels u hmem)
    simp [hnm]

theorem sameText_refl (r : Rec) : sameText r r := ⟨sameCore_refl r, rfl⟩

theorem sameText_trans {a b c : Rec} (h1 : sameText a b) (h2 : sameText b c) :
    sameText a c :=
  ⟨sameCore_trans h1.1 h2.1, h2.2.trans h1.2⟩

theorem merge_sameText (p s : Rec) (h : p.pincode ≠ "") :
    sameText p (merge_record_data p s) :=
  ⟨merge_sameCore p s, merge_pincode_of_ne p s h⟩

theorem TextRel_refl (st : Reg) : TextRel st st := by
  induction st with
  | nil => exact List.Forall₂.nil
  | cons p ps ih => exact List.Forall₂.cons ⟨rfl, sameText_refl p.2⟩ ih

theorem TextRel_keys {st st' : Reg} (h : TextRel st st') :
    keysOf st = keysOf st' := by
  induction h with
  | nil => rfl
  | cons hpq _ ih =>
    simp only [keysOf, List.map_cons] at ih ⊢
    rw [hpq.1, ih]

theorem TextRel_lookup {st st' : Reg} (h : TextRel st st') {u : String}
    {r : Rec} (hl : lookup? st u = some r) :
    ∃ r', lookup? st' u = some r' ∧ sameText r r' := by
  induction h with
  | nil => simp [lookup?] at hl
  | cons hpq hrest ih =>
    rename_i p q ps qs
    by_cases hp : p.1 = u
    · unfold lookup? at hl ⊢
      rw [List.find?_cons_of_pos _ (by simpa using hp)] at hl
      rw [List.find?_cons_of_pos _ (by simpa using (hpq.1 ▸ hp))]
      simp at hl
      exact ⟨q.2, by simp, hl ▸ hpq.2⟩
    · unfold lookup? at hl ⊢
      rw [List.find?_cons_of_neg _ (by simpa using hp)] at hl
      rw [List.find?_cons_of_neg _
        (by simpa using (show ¬ (q.1 = u) from hpq.1 ▸ hp))]
      exact ih hl

theorem TextRel_lookup_rev {st st' : Reg} (h : TextRel st st') {u : String}
    {r' : Rec} (hl : lookup? st' u = some r') :
    ∃ r, lookup? st u = some r ∧ sameText r r' := by
  induction h with
  | nil => simp [lookup?] at hl
  | cons hpq hrest ih =>
    rename_i p q ps qs
    by_cases hp : p.1 = u
    · unfold lookup? at hl ⊢
      rw [List.find?_cons_of_pos _ (by simpa using (hpq.1 ▸ hp))] at hl
      rw [List.find?_cons_of_pos _ (by simpa using hp)]
      simp at hl
      exact ⟨p.2, by simp, hl ▸ hpq.2⟩
    · unfold lookup? at hl ⊢
      rw [List.find?_cons_of_neg _
        (by simpa using (show ¬ (q.1 = u) from hpq.1 ▸ hp))] at hl
      rw [List.find?_cons_of_neg _ (by simpa using hp)]
      exact ih hl

theorem TextRel_dictSet {st st' : Reg} (h : TextRel st st') {u : String}
    {v : Rec} (hu : u ∈ keysOf st')
    (hv : ∀ r₀, (u, r₀) ∈ st → sameText r₀ v) :
    TextRel st (dictSet st' u v) := by
  rw [dictSet_eq_map_of_mem v hu]
  clear hu
  induction h with
  | nil => exact List.Forall₂.nil
  | cons hpq hrest ih =>
    rename_i p q ps qs
    rw [List.map_cons]
    refine List.Forall₂.cons ?_ (ih (fun r₀ hm => hv r₀ (by simp [hm])))
    by_cases hq : q.1 = u
    · rw [if_pos (by simpa using hq)]
      refine ⟨hpq.1.trans hq, ?_⟩
      have hpu : p.1 = u := hpq.1.trans hq
      have hm : (u, p.2) ∈ (p :: ps : Reg) := by
        have : (u, p.2) = p := by cases p; simp_all
        rw [this]; simp
      exact hv p.2 hm
    · rw [if_neg (by simpa using hq)]
      exact hpq

theorem pinLookup_pinAppend_self (gs : List (String × List String))
    (k : String) (u : String) :
    pinLookup (pinAppend gs k u) k = pinLookup gs k ++ [u] := by
  unfold pinAppend pinLookup
  split
  · rename_i hany
    rw [find?_entry_map_self]
    obtain ⟨g, hg, hgk⟩ := List.any_eq_true.mp hany
    cases hf : gs.find? (fun g => g.1 == k) with
    | none =>
      have : (gs.find? (fun g => g.1 == k)).isSome := by
        rw [List.find?_isSome]; exact ⟨g, hg, hgk⟩
      rw [hf] at this; simp at this
    | some g0 => simp
  · rename_i hany
    rw [find?_entry_append_single_self _ _ _
      (find?_entry_none_of_not_any _ _ hany)]
    rw [find?_entry_none_of_not_any _ _ hany]
    simp

theorem pinLookup_pinAppend_ne (gs : List (String × List String))
    (k k' : String) (u : String) (h : k' ≠ k) :
    pinLookup (pinAppend gs k u) k' = pinLookup gs k' := by
  unfold pinAppend pinLookup
  split
  · rw [find?_entry_map_ne _ _ _ _ h]
  · rw [find?_entry_append_single_ne _ _ _ _ h]

theorem bucketize_aux (k : String) (l : List (String × Rec)) :
    ∀ acc : List (String × List String) × List String,
      pinLookup
          (l.foldl
            (fun acc p =>
              let pin := pyStrip p.2.pincode
              if pin.length < 6 then acc
              else if p.2.accuracy = "HIGH" ∨ p.2.accuracy = "LOW" then
                (pinAppend acc.1 pin p.1, acc.2)
              else (acc.1, acc.2 ++ [p.1])) acc).1 k
        = pinLookup acc.1 k
          ++ (l.filter
              (fun p => masterPred p && (pyStrip p.2.pincode == k))).map
            Prod.fst
      ∧ (l.foldl
            (fun acc p =>
              let pin := pyStrip p.2.pincode
              if pin.length < 6 then acc
              else if p.2.accuracy = "HIGH" ∨ p.2.accuracy = "LOW" then
                (pinAppend acc.1 pin p.1, acc.2)
              else (acc.1, acc.2 ++ [p.1])) acc).2
        = acc.2 ++ (l.filter candPred).map Prod.fst := by
  induction l with
  | nil => simp
  | cons p ps ih =>
    intro acc
    rw [List.foldl_cons]
    dsimp only
    by_cases h6 : (pyStrip p.2.pincode).length < 6
    · rw [if_pos h6,
        List.filter_cons_of_neg (by simp [masterPred, h6]),
        List.filter_cons_of_neg (by simp [candPred, h6])]
      exact ih acc
    · rw [if_neg h6]
      by_cases hacc : p.2.accuracy = "HIGH" ∨ p.2.accuracy = "LOW"
      · rw [if_pos hacc]
        refine ⟨?_, ?_⟩
        · rw [(ih _).1]
          by_cases hk : pyStrip p.2.pincode = k
          · rw [List.filter_cons_of_pos
              (by simp [masterPred, hacc, hk]
                  exact Nat.le_of_not_lt (hk ▸ h6))]
            dsimp only
            rw [hk, pinLookup_pinAppend_self]
            simp
          · rw [List.filter_cons_of_neg (by simp [masterPred, h6, hacc, hk]),
              pinLookup_pinAppend_ne _ _ _ _ (fun hh => hk hh.symm)]
        · rw [(ih _).2,
            List.filter_cons_of_neg (by simp [candPred, hacc])]
      · rw [if_neg hacc]
        refine ⟨?_, ?_⟩
        · rw [(ih _).1,
            List.filter_cons_of_neg (by simp [masterPred, hacc])]
        · rw [(ih _).2,
            List.filter_cons_of_pos (by simp [candPred, h6, hacc])]
          simp

theorem bucketize_masters (st : Reg) (k : String) :
    pinLookup (bucketize st).1 k
      = (st.filter
          (fun p => masterPred p && (pyStrip p.2.pincode == k))).map
        Prod.fst := by
  unfold bucketize
  rw [(bucketize_aux k st ([], [])).1]
  simp [pinLookup]

theorem bucketize_cands (st : Reg) :
    (bucketize st).2 = (st.filter candPred).map Prod.fst := by
  unfold bucketize
  rw [(bucketize_aux "" st ([], [])).2]
  simp

theorem bucketize_keys_nodup (st : Reg) :
    (((bucketize st).1).map Prod.fst).Nodup := by
  unfold bucketize
  refine foldl_rec
    (fun acc (p : String × Rec) =>
      let pin := pyStrip p.2.pincode
      if pin.length < 6 then acc
      else if p.2.accuracy = "HIGH" ∨ p.2.accuracy = "LOW" then
        (pinAppend acc.1 pin p.1, acc.2)
      else (acc.1, acc.2 ++ [p.1]))
    (fun acc => ((acc.1).map Prod.fst).Nodup) st ([], []) (by simp) ?_
  intro acc p _ hnd
  dsimp only
  by_cases h6 : (pyStrip p.2.pincode).length < 6
  · rwa [if_pos h6]
  · rw [if_neg h6]
    by_cases hacc : p.2.accuracy = "HIGH" ∨ p.2.accuracy = "LOW"
    · rw [if_pos hacc]
      unfold pinAppend
      split
      · rwa [map_fst_entry_map]
      · rename_i hany
        rw [List.map_append]
        simp only [List.map_cons, List.map_nil]
        rw [List.nodup_append]
        refine ⟨hnd, by simp, ?_⟩
        intro a ha
        simp only [List.mem_singleton]
        intro hae
        subst hae
        obtain ⟨g, hg, hge⟩ := List.mem_map.mp ha
        exact hany (List.any_eq_true.mpr ⟨g, hg, by simpa using hge⟩)
    · rwa [if_neg hacc]

theorem mem_bucketize_eq_pinLookup (st : Reg) {k : String}
    {G : List String} (hm : (k, G) ∈ (bucketize st).1) :
    pinLookup (bucketize st).1 k = G := by
  unfold pinLookup
  rw [find?_entry_of_mem_nodup (bucketize_keys_nodup st) hm]
  rfl

theorem pinLookup_ne_nil_mem (gs : List (String × List String))
    (k : String) (h : pinLookup gs k ≠ []) : (k, pinLookup gs k) ∈ gs := by
  unfold pinLookup at h ⊢
  cases hf : gs.find? (fun g => g.1 == k) with
  | none => rw [hf] at h; simp at h
  | some g =>
    have hk := List.find?_some hf
    simp only [beq_iff_eq] at hk
    have hm := List.mem_of_find?_eq_some hf
    have he : (k, (Option.map Prod.snd (some g)).getD []) = g := by
      cases g; simp_all
    rw [he]
    exact hm

theorem masterUid_rec {st₁ : Reg} {u : String}
    (h : MasterUid (bucketize st₁).1 u) :
    ∃ r, (u, r) ∈ st₁ ∧ masterPred (u, r) = true := by
  obtain ⟨g, hg, hu⟩ := h
  rcases g with ⟨k, G⟩
  have hGl := mem_bucketize_eq_pinLookup st₁ hg
  rw [← hGl, bucketize_masters] at hu
  obtain ⟨⟨pu, pr⟩, hp, he⟩ := List.mem_map.mp hu
  cases he
  have hf := List.mem_filter.mp hp
  refine ⟨pr, hf.1, ?_⟩
  have := hf.2
  simp only [Bool.and_eq_true] at this
  exact this.1

theorem masterPred_pincode_ne {p : String × Rec}
    (h : masterPred p = true) : p.2.pincode ≠ "" := by
  intro he
  unfold masterPred at h
  rw [he] at h
  simp [pyStrip] at h

theorem bestMaster_mem {ratio : String → String → ℚ} {st : Reg}
    {candName : String} {ms : List String} {mid : String}
    (h : (bestMaster ratio st candName ms).1 = some mid) : mid ∈ ms := by
  unfold bestMaster at h
  have hP := foldl_rec
    (fun (best : Option String × ℚ) mid =>
      let score := calculate_similarity ratio candName (lookupD st mid).name
      if 85/100 < score ∧ best.2 < score then (some mid, score) else best)
    (fun best => ∀ m, best.1 = some m → m ∈ ms) ms (none, 0)
    (by intro m hm; simp at hm) ?_
  · exact hP mid h
  · intro best m hmem hb m' hm'
    dsimp only at hm'
    split at hm'
    · simp only at hm'
      rw [← Option.some.inj hm']
      exact hmem
    · exact hb m' hm'

theorem bestMaster_congr {ratio : String → String → ℚ} {st st' : Reg}
    {candName : String} {ms : List String}
    (h : ∀ m ∈ ms, (lookupD st' m).name = (lookupD st m).name) :
    bestMaster ratio st' candName ms = bestMaster ratio st candName ms := by
  unfold bestMaster
  have haux : ∀ (l : List String) (best : Option String × ℚ),
      (∀ m ∈ l, (lookupD st' m).name = (lookupD st m).name) →
      l.foldl
          (fun best mid =>
            let score := calculate_similarity ratio candName
              (lookupD st' mid).name
            if 85/100 < score ∧ best.2 < score then (some mid, score)
            else best) best
        = l.foldl
          (fun best mid =>
            let score := calculate_similarity ratio candName
              (lookupD st mid).name
            if 85/100 < score ∧ best.2 < score then (some mid, score)
            else best) best := by
    intro l
    induction l with
    | nil => intro best _; rfl
    | cons m l ih =>
      intro best hl
      rw [List.foldl_cons, List.foldl_cons]
      dsimp only
      rw [hl m (by simp)]
      exact ih _ (fun m' hm' => hl m' (by simp [hm']))
  exact haux ms (none, 0) h

theorem textStep_eq (ratio : String → String → ℚ)
    (M : List (String × List String)) (st1 : Reg) (c : Nat)
    (d : List String) (cid : String) :
    textStep ratio M (st1, c, d) cid
      = match (bestMaster ratio st1 (lookupD st1 cid).name
          (pinLookup M (pyStrip (lookupD st1 cid).pincode))).1 with
        | none => (st1, c, d)
        | some mid =>
          (dictSet st1 mid
              (merge_record_data (lookupD st1 mid) (lookupD st1 cid)),
            c + 1, d ++ [cid]) := rfl

theorem textStep_lookupD {st₁ : Reg} (hnd : (keysOf st₁).Nodup)
    {s : Reg × Nat × List String} (hinv : textInv st₁ s) {cid : String}
    {r : Rec} (hm : (cid, r) ∈ st₁) (hc : candPred (cid, r) = true) :
    lookupD s.1 cid = r := by
  have hnm : ¬ MasterUid (bucketize st₁).1 cid := by
    intro hmu
    obtain ⟨rm, hrm, hmp⟩ := masterUid_rec hmu
    have h1 : lookup? st₁ cid = some r := lookup?_of_mem_nodup hnd hm
    have h2 : lookup? st₁ cid = some rm := lookup?_of_mem_nodup hnd hrm
    rw [h1] at h2
    rw [← Option.some.inj h2] at hmp
    unfold masterPred at hmp
    unfold candPred at hc
    simp only [Bool.and_eq_true] at hmp hc
    rw [hmp.2] at hc
    simp at hc
  have hl := hinv.2.1 cid hnm
  unfold lookupD
  rw [hl, lookup?_of_mem_nodup hnd hm]
  rfl

theorem textStep_invariant {ratio : String → String → ℚ} {st₁ : Reg}
    (hnd : (keysOf st₁).Nodup) {s : Reg × Nat × List String}
    (hinv : textInv st₁ s) {cid : String}
    (hcid : cid ∈ (bucketize st₁).2) :
    textInv st₁ (textStep ratio (bucketize st₁).1 s cid) := by
  rcases s with ⟨st1, c, d⟩
  have hcand : ∃ r, (cid, r) ∈ st₁ ∧ candPred (cid, r) = true := by
    have h0 := hcid
    rw [bucketize_cands] at h0
    obtain ⟨⟨pu, pr⟩, hp, he⟩ := List.mem_map.mp h0
    have he' : pu = cid := he
    have hf := List.mem_filter.mp hp
    rw [he'] at hf
    exact ⟨pr, hf.1, hf.2⟩
  obtain ⟨r, hmr, hcr⟩ := hcand
  have hD : lookupD st1 cid = r := textStep_lookupD hnd hinv hmr hcr
  obtain ⟨hrel, hoth, hdel⟩ := hinv
  rw [textStep_eq, hD]
  cases hbm : (bestMaster ratio st1 r.name
      (pinLookup (bucketize st₁).1 (pyStrip r.pincode))).1 with
  | none => exact ⟨hrel, hoth, hdel⟩
  | some mid =>
    have hmidm : mid ∈ pinLookup (bucketize st₁).1 (pyStrip r.pincode) :=
      bestMaster_mem hbm
    have hmu : MasterUid (bucketize st₁).1 mid :=
      ⟨(pyStrip r.pincode,
          pinLookup (bucketize st₁).1 (pyStrip r.pincode)),
        pinLookup_ne_nil_mem _ _ (List.ne_nil_of_mem hmidm), hmidm⟩
    obtain ⟨rm, hrmm, hrmp⟩ := masterUid_rec hmu
    have hlm1 : lookup? st₁ mid = some rm := lookup?_of_mem_nodup hnd hrmm
    obtain ⟨rm', hlm', hsm⟩ := TextRel_lookup hrel hlm1
    have hDm : lookupD st1 mid = rm' := by
      unfold lookupD
      rw [hlm']
      rfl
    have hpin : rm'.pincode ≠ "" := by
      rw [hsm.2]
      exact masterPred_pincode_ne hrmp
    refine ⟨?_, ?_, ?_⟩
    · apply TextRel_dictSet hrel
      · rw [← TextRel_keys hrel]
        exact List.mem_map.mpr ⟨(mid, rm), hrmm, rfl⟩
      · intro r₀ hm0
        have h2 := lookup?_of_mem_nodup hnd hm0
        rw [hlm1] at h2
        rw [← Option.some.inj h2]
        rw [hDm]
        exact sameText_trans hsm (merge_sameText rm' r hpin)
    · intro u hu
      have hne : u ≠ mid := fun he => hu (he ▸ hmu)
      rw [lookup?_dictSet_ne _ _ _ _ hne]
      exact hoth u hu
    · intro u hu
      rcases List.mem_append.mp hu with hu | hu
      · exact hdel u hu
      · rw [List.mem_singleton] at hu
        subst hu
        exact hcid

theorem textFold_invariant {ratio : String → String → ℚ} {st₁ : Reg}
    (hnd : (keysOf st₁).Nodup) (cs : List String)
    (hcs : ∀ cv ∈ cs, cv ∈ (bucketize st₁).2)
    (s : Reg × Nat × List String) (hs : textInv st₁ s) :
    textInv st₁ (cs.foldl (textStep ratio (bucketize st₁).1) s) := by
  refine foldl_rec (textStep ratio (bucketize st₁).1) (textInv st₁)
    cs s hs ?_
  intro s' cid hcid hs'
  exact textStep_invariant hnd hs' (hcs cid hcid)

theorem textFold_dels_mono (ratio : String → String → ℚ)
    (M : List (String × List String)) (cs : List String)
    (s : Reg × Nat × List String) :
    ∀ u ∈ s.2.2, u ∈ (cs.foldl (textStep ratio M) s).2.2 := by
  refine foldl_rec (textStep ratio M) (fun s' => ∀ u ∈ s.2.2, u ∈ s'.2.2)
    cs s (fun u hu => hu) ?_
  intro s' cid _ hs u hu
  rcases s' with ⟨st1, c, d⟩
  rw [textStep_eq]
  cases hbm : (bestMaster ratio st1 (lookupD st1 cid).name
      (pinLookup M (pyStrip (lookupD st1 cid).pincode))).1 with
  | none => exact hs u hu
  | some mid => exact List.mem_append.mpr (Or.inl (hs u hu))

theorem textFold_deleted {ratio : String → String → ℚ} {st₁ : Reg}
    (hnd : (keysOf st₁).Nodup) :
    ∀ (cs : List String) (s : Reg × Nat × List String),
      (∀ cv ∈ cs, cv ∈ (bucketize st₁).2) → textInv st₁ s →
      ∀ cid ∈ cs, ∀ r, (cid, r) ∈ st₁ →
        (bestMaster ratio st₁ r.name
          (pinLookup (bucketize st₁).1 (pyStrip r.pincode))).1 ≠ none →
        cid ∈ (cs.foldl (textStep ratio (bucketize st₁).1) s).2.2 := by
  intro cs
  induction cs with
  | nil =>
    intro s _ _ cid h
    simp at h
  | cons c0 cs ih =>
    intro s hsub hinv cid hcid r hmr hne
    rw [List.foldl_cons]
    rcases List.mem_cons.mp hcid with hceq | hcid'
    · rw [hceq] at hmr ⊢
      rcases s with ⟨st1, c, d⟩
      have hcr : candPred (c0, r) = true := by
        have h0 := hsub c0 (by simp)
        rw [bucketize_cands] at h0
        obtain ⟨⟨pu, pr⟩, hp, he⟩ := List.mem_map.mp h0
        have he' : pu = c0 := he
        have hf := List.mem_filter.mp hp
        rw [he'] at hf
        have hl1 : lookup? st₁ c0 = some r := lookup?_of_mem_nodup hnd hmr
        have hl2 : lookup? st₁ c0 = some pr := lookup?_of_mem_nodup hnd hf.1
        rw [hl1] at hl2
        rw [Option.some.inj hl2]
        exact hf.2
      have hD : lookupD st1 c0 = r := textStep_lookupD hnd hinv hmr hcr
      have hnames : ∀ m ∈ pinLookup (bucketize st₁).1 (pyStrip r.pincode),
          (lookupD st1 m).name = (lookupD st₁ m).name := by
        intro m hm
        have hmu : MasterUid (bucketize st₁).1 m :=
          ⟨(pyStrip r.pincode,
              pinLookup (bucketize st₁).1 (pyStrip r.pincode)),
            pinLookup_ne_nil_mem _ _ (List.ne_nil_of_mem hm), hm⟩
        obtain ⟨rm, hrmm, _⟩ := masterUid_rec hmu
        have hlm : lookup? st₁ m = some rm := lookup?_of_mem_nodup hnd hrmm
        obtain ⟨rm', hlm', hsm⟩ := TextRel_lookup hinv.1 hlm
        unfold lookupD
        rw [hlm, hlm']
        simp only [Option.getD_some]
        exact hsm.1.1
      have hbmeq : bestMaster ratio st1 r.name
            (pinLookup (bucketize st₁).1 (pyStrip r.pincode))
          = bestMaster ratio st₁ r.name
            (pinLookup (bucketize st₁).1 (pyStrip r.pincode)) :=
        bestMaster_congr hnames
      rw [textStep_eq, hD, hbmeq]
      cases hbm : (bestMaster ratio st₁ r.name
          (pinLookup (bucketize st₁).1 (pyStrip r.pincode))).1 with
      | none => exact absurd hbm hne
      | some mid =>
        exact textFold_dels_mono ratio _ cs _ c0 (by simp)
    · have hinv' : textInv st₁ (textStep ratio (bucketize st₁).1 s c0) :=
        textStep_invariant hnd hinv (hsub c0 (by simp))
      exact ih _ (fun cv hcv => hsub cv (by simp [hcv])) hinv' cid hcid'
        r hmr hne

theorem forall₂_mem_right {α β : Type _} {R : α → β → Prop}
    {l : List α} {l' : List β} (h : List.Forall₂ R l l') {b : β}
    (hb : b ∈ l') : ∃ a ∈ l, R a b := by
  induction h with
  | nil => simp at hb
  | cons hpq hrest ih =>
    rename_i a₀ b₀ l₁ l₂
    rcases List.mem_cons.mp hb with hb | hb
    · exact ⟨a₀, by simp, by rw [hb]; exact hpq⟩
    · obtain ⟨a, ha, hr⟩ := ih hb
      exact ⟨a, by simp [ha], hr⟩

theorem filter_forall₂ {α β : Type _} {R : α → β → Prop}
    {E : α → Bool} {F : β → Bool} :
    ∀ {l : List α} {l' : List β}, List.Forall₂ R l l' →
      (∀ a b, R a b → F b = E a) →
      List.Forall₂ R (l.filter E) (l'.filter F) := by
  intro l l' h
  induction h with
  | nil =>
    intro _
    exact List.Forall₂.nil
  | cons hpq hrest ih =>
    rename_i p q ps qs
    intro hEF
    by_cases hE : E p = true
    · rw [List.filter_cons_of_pos hE,
        List.filter_cons_of_pos (by rw [hEF p q hpq]; exact hE)]
      exact List.Forall₂.cons hpq (ih hEF)
    · rw [List.filter_cons_of_neg (by simpa using hE),
        List.filter_cons_of_neg (by rw [hEF p q hpq]; simpa using hE)]
      exact ih hEF

theorem pairwise_of_forall₂ {α β : Type _} {R : α → β → Prop}
    {S : α → α → Prop} {T : β → β → Prop}
    (hST : ∀ a b a' b', R a a' → R b b' → S a b → T a' b') :
    ∀ {l : List α} {l' : List β}, List.Forall₂ R l l' →
      l.Pairwise S → l'.Pairwise T := by
  intro l l' h
  induction h with
  | nil =>
    intro _
    exact List.Pairwise.nil
  | cons hpq hrest ih =>
    rename_i p q ps qs
    intro hp
    rw [List.pairwise_cons] at hp ⊢
    refine ⟨?_, ih hp.2⟩
    intro b' hb'
    obtain ⟨b, hb, hr⟩ := forall₂_mem_right hrest hb'
    exact hST p b q b' hpq hr (hp.1 b hb)

theorem filter_map_fst_of_forall₂
    {R : String × Rec → String × Rec → Prop} {Q D : String × Rec → Bool}
    (hkey : ∀ p q, R p q → p.1 = q.1) :
    ∀ {l l' : Reg}, List.Forall₂ R l l' →
      (∀ p q, p ∈ l → R p q → Q q = Q p) →
      (∀ p q, p ∈ l → R p q → Q p = true → D q = true) →
      (l'.filter (fun q => D q && Q q)).map Prod.fst
        = (l.filter Q).map Prod.fst := by
  intro l l' h
  induction h with
  | nil =>
    intro _ _
    rfl
  | cons hpq hrest ih =>
    rename_i p q ps qs
    intro hQ hD
    by_cases hQp : Q p = true
    · rw [List.filter_cons_of_pos (by
          rw [Bool.and_eq_true]
          refine ⟨hD p q (by simp) hpq hQp, ?_⟩
          rw [hQ p q (by simp) hpq]
          exact hQp),
        List.filter_cons_of_pos hQp,
        List.map_cons, List.map_cons,
        ih (fun p' q' hm hr => hQ p' q' (by simp [hm]) hr)
          (fun p' q' hm hr hq => hD p' q' (by simp [hm]) hr hq),
        hkey p q hpq]
    · rw [List.filter_cons_of_neg (by
          rw [Bool.and_eq_true]
          rintro ⟨-, hq⟩
          rw [hQ p q (by simp) hpq] at hq
          exact hQp hq),
        List.filter_cons_of_neg (by simpa using hQp)]
      exact ih (fun p' q' hm hr => hQ p' q' (by simp [hm]) hr)
        (fun p' q' hm hr hq => hD p' q' (by simp [hm]) hr hq)

theorem masterPred_congr {p q : String × Rec} (h : sameText p.2 q.2) :
    masterPred q = masterPred p := by
  unfold masterPred
  rw [h.2, h.1.2.1]

theorem candPred_congr {p q : String × Rec} (h : sameText p.2 q.2) :
    candPred q = candPred p := by
  unfold candPred
  rw [h.2, h.1.2.1]

theorem master_not_cand {st₁ : Reg} (hnd : (keysOf st₁).Nodup)
    {u : String} {r : Rec} (hm : (u, r) ∈ st₁)
    (hmp : masterPred (u, r) = true) : u ∉ (bucketize st₁).2 := by
  intro hu
  rw [bucketize_cands] at hu
  obtain ⟨⟨pu, pr⟩, hp, he⟩ := List.mem_map.mp hu
  have he' : pu = u := he
  have hf := List.mem_filter.mp hp
  rw [he'] at hf
  have h1 := lookup?_of_mem_nodup hnd hm
  have h2 := lookup?_of_mem_nodup hnd hf.1
  rw [h1] at h2
  have hrr : pr = r := (Option.some.inj h2).symm
  have hc := hf.2
  rw [hrr] at hc
  unfold masterPred at hmp
  unfold candPred at hc
  simp only [Bool.and_eq_true] at hmp hc
  rw [hmp.2] at hc
  simp at hc

theorem text_noop (ratio : String → String → ℚ) (st : Reg)
    (hnd : (keysOf st).Nodup) (hsep : TextSeparated ratio st) :
    deduplicate_with_text ratio st = (st, 0) := by
  have hfold : ∀ (cs : List String),
      (∀ cv ∈ cs, cv ∈ (bucketize st).2) →
      cs.foldl (textStep ratio (bucketize st).1) (st, 0, [])
        = (st, 0, []) := by
    intro cs
    induction cs with
    | nil => intro _; rfl
    | cons c0 cs ih =>
      intro hsub
      rw [List.foldl_cons]
      have hstep : textStep ratio (bucketize st).1
          (st, 0, ([] : List String)) c0 = (st, 0, []) := by
        have h0 := hsub c0 (by simp)
        rw [bucketize_cands] at h0
        obtain ⟨⟨pu, pr⟩, hp, he⟩ := List.mem_map.mp h0
        have he' : pu = c0 := he
        have hf := List.mem_filter.mp hp
        rw [he'] at hf
        have hD : lookupD st c0 = pr :=
          @textStep_lookupD st hnd (st, 0, [])
            ⟨TextRel_refl st, fun _ _ => rfl,
              fun u hu => absurd hu (List.not_mem_nil u)⟩
            c0 pr hf.1 hf.2
        rw [textStep_eq, hD, hsep c0 pr hf.1 hf.2]
      rw [hstep]
      exact ih (fun cv hcv => hsub cv (by simp [hcv]))
  unfold deduplicate_with_text
  simp only
  rw [hfold _ (fun cv hcv => hcv)]
  simp

theorem deduplicate_with_text_eq (ratio : String → String → ℚ) (st : Reg) :
    deduplicate_with_text ratio st
      = ((((bucketize st).2.foldl (textStep ratio (bucketize st).1)
            (st, 0, [])).1).filter
          (fun p => !(((bucketize st).2.foldl
            (textStep ratio (bucketize st).1)
            (st, 0, [])).2.2.contains p.1)),
        ((bucketize st).2.foldl (textStep ratio (bucketize st).1)
          (st, 0, [])).2.1) := rfl

theorem textInv_final (ratio : String → String → ℚ) {st : Reg}
    (hnd : (keysOf st).Nodup) :
    textInv st ((bucketize st).2.foldl (textStep ratio (bucketize st).1)
      (st, 0, [])) :=
  textFold_invariant hnd _ (fun _ h => h) _
    ⟨TextRel_refl st, fun _ _ => rfl,
      fun u hu => absurd hu (List.not_mem_nil u)⟩

theorem text_out_nodup (ratio : String → String → ℚ) {st : Reg}
    (hnd : (keysOf st).Nodup) :
    (keysOf (deduplicate_with_text ratio st).1).Nodup := by
  have hrel := (textInv_final ratio hnd).1
  have h1 : (keysOf ((bucketize st).2.foldl
      (textStep ratio (bucketize st).1) (st, 0, [])).1).Nodup := by
    rw [← TextRel_keys hrel]
    exact hnd
  rw [deduplicate_with_text_eq]
  unfold keysOf at h1 ⊢
  exact List.Nodup.sublist ((List.filter_sublist _).map Prod.fst) h1

theorem text_out_master_lookup (ratio : String → String → ℚ) {st : Reg}
    (hnd : (keysOf st).Nodup) {m : String} {rm : Rec}
    (hm : (m, rm) ∈ st) (hmp : masterPred (m, rm) = true) :
    ∃ rm', lookup? (deduplicate_with_text ratio st).1 m = some rm'
      ∧ sameText rm rm' := by
  have hinv := textInv_final ratio hnd
  obtain ⟨rm', hlm', hsm⟩ := TextRel_lookup hinv.1
    (lookup?_of_mem_nodup hnd hm)
  have hnd2 : m ∉ ((bucketize st).2.foldl
      (textStep ratio (bucketize st).1) (st, 0, [])).2.2 :=
    fun hdel => master_not_cand hnd hm hmp (hinv.2.2 m hdel)
  refine ⟨rm', ?_, hsm⟩
  rw [deduplicate_with_text_eq]
  simp only
  rw [lookup?_filter]
  · exact hlm'
  · intro r' _
    simp [hnd2]

theorem text_out_entry_rev (ratio : String → String → ℚ) {st : Reg}
    (hnd : (keysOf st).Nodup) {u : String} {r' : Rec}
    (hm : (u, r') ∈ (deduplicate_with_text ratio st).1) :
    ∃ r, (u, r) ∈ st ∧ sameText r r'
      ∧ u ∉ ((bucketize st).2.foldl (textStep ratio (bucketize st).1)
          (st, 0, [])).2.2 := by
  have hinv := textInv_final ratio hnd
  rw [deduplicate_with_text_eq] at hm
  simp only at hm
  have hf := List.mem_filter.mp hm
  have hndF : (keysOf ((bucketize st).2.foldl
      (textStep ratio (bucketize st).1) (st, 0, [])).1).Nodup := by
    rw [← TextRel_keys hinv.1]
    exact hnd
  have hl' : lookup? ((bucketize st).2.foldl
      (textStep ratio (bucketize st).1) (st, 0, [])).1 u = some r' :=
    lookup?_of_mem_nodup hndF hf.1
  obtain ⟨r, hl, hs⟩ := TextRel_lookup_rev hinv.1 hl'
  refine ⟨r, lookup?_mem hl, hs, ?_⟩
  intro hmem
  have hx := hf.2
  simp [hmem] at hx

theorem text_out_buckets (ratio : String → String → ℚ) {st : Reg}
    (hnd : (keysOf st).Nodup) (k : String) :
    pinLookup (bucketize (deduplicate_with_text ratio st).1).1 k
      = pinLookup (bucketize st).1 k := by
  have hinv := textInv_final ratio hnd
  rw [bucketize_masters, bucketize_masters, deduplicate_with_text_eq]
  simp only
  rw [List.filter_filter]
  have hcomm : ∀ l : Reg, l.filter
        (fun a => (masterPred a && (pyStrip a.2.pincode == k))
          && !(((bucketize st).2.foldl (textStep ratio (bucketize st).1)
            (st, 0, [])).2.2.contains a.1))
      = l.filter
        (fun a => (!(((bucketize st).2.foldl
            (textStep ratio (bucketize st).1)
            (st, 0, [])).2.2.contains a.1))
          && (masterPred a && (pyStrip a.2.pincode == k))) := by
    intro l
    apply List.filter_congr
    intro p _
    rw [Bool.and_comm]
  rw [hcomm]
  refine filter_map_fst_of_forall₂ (fun p q hr => hr.1) hinv.1 ?_ ?_
  · intro p q _ hr
    rw [masterPred_congr hr.2, hr.2.2]
  · intro p q hm hr hQp
    rw [Bool.and_eq_true] at hQp
    have hmp : masterPred (p.1, p.2) = true := hQp.1
    have hnc := master_not_cand hnd
      (show (p.1, p.2) ∈ st by cases p; exact hm) hmp
    have hpd : p.1 ∉ ((bucketize st).2.foldl
        (textStep ratio (bucketize st).1) (st, 0, [])).2.2 :=
      fun hdel => hnc (hinv.2.2 p.1 hdel)
    rw [← hr.1]
    simp [hpd]

theorem text_out_sep (ratio : String → String → ℚ) {st : Reg}
    (hnd : (keysOf st).Nodup) :
    TextSeparated ratio (deduplicate_with_text ratio st).1 := by
  intro cid r' hm hcp
  obtain ⟨r, hmr, hs, hndel⟩ := text_out_entry_rev ratio hnd hm
  rw [@candPred_congr (cid, r) (cid, r') hs] at hcp
  have hdec : (bestMaster ratio st r.name
      (pinLookup (bucketize st).1 (pyStrip r.pincode))).1 = none := by
    by_contra hne
    have hcidC : cid ∈ (bucketize st).2 := by
      rw [bucketize_cands]
      exact List.mem_map.mpr ⟨(cid, r), List.mem_filter.mpr ⟨hmr, hcp⟩, rfl⟩
    have hdel := textFold_deleted hnd (bucketize st).2 (st, 0, [])
      (fun _ h => h)
      ⟨TextRel_refl st, fun _ _ => rfl,
        fun u hu => absurd hu (List.not_mem_nil u)⟩
      cid hcidC r hmr hne
    exact hndel hdel
  rw [show r'.pincode = r.pincode from hs.2,
    show r'.name = r.name from hs.1.1,
    text_out_buckets ratio hnd]
  have hnames : ∀ m ∈ pinLookup (bucketize st).1 (pyStrip r.pincode),
      (lookupD (deduplicate_with_text ratio st).1 m).name
        = (lookupD st m).name := by
    intro m hmm
    have hmu : MasterUid (bucketize st).1 m :=
      ⟨(pyStrip r.pincode, pinLookup (bucketize st).1 (pyStrip r.pincode)),
        pinLookup_ne_nil_mem _ _ (List.ne_nil_of_mem hmm), hmm⟩
    obtain ⟨rm, hrmm, hrmp⟩ := masterUid_rec hmu
    obtain ⟨rm', hlm', hsm⟩ := text_out_master_lookup ratio hnd hrmm hrmp
    unfold lookupD
    rw [hlm', lookup?_of_mem_nodup hnd hrmm]
    simp only [Option.getD_some]
    exact hsm.1.1
  rw [bestMaster_congr hnames]
  exact hdec

theorem text_preserves_spatial (ratio : String → String → ℚ) {st : Reg}
    (hnd : (keysOf st).Nodup) (hsep : SpatialSeparated st) :
    SpatialSeparated (deduplicate_with_text ratio st).1 := by
  have hinv := textInv_final ratio hnd
  unfold SpatialSeparated at hsep ⊢
  have hpair : ((((bucketize st).2.foldl (textStep ratio (bucketize st).1)
        (st, 0, [])).1).filter (fun p => eligRec p.2)).Pairwise
      (fun p q => coordKey p.2 ≠ coordKey q.2) := by
    refine pairwise_of_forall₂ ?_ (filter_forall₂ hinv.1 ?_) hsep
    · intro a b a' b' hr hr' hS heq
      rw [coordKey_congr hr.2.1, coordKey_congr hr'.2.1] at heq
      exact hS heq
    · intro a b hr
      exact eligRec_congr hr.2.1
  rw [deduplicate_with_text_eq]
  simp only
  refine List.Pairwise.sublist ?_ hpair
  exact (List.filter_sublist _).filter _

theorem spatial_out_nodup (st : Reg) (hnd : (keysOf st).Nodup) :
    (keysOf (deduplicate_spatial st).1).Nodup := by
  obtain ⟨hcore, -, -⟩ := spatial_fold_invariant st hnd
  have h1 : (keysOf ((buildGroups st).foldl spatialStep
      (st, 0, [])).1).Nodup := by
    rw [← CoreRel_keys hcore]
    exact hnd
  unfold deduplicate_spatial
  simp only
  unfold keysOf at h1 ⊢
  exact List.Nodup.sublist ((List.filter_sublist _).map Prod.fst) h1

theorem rankGe_refl (x : Nat × Nat) : rankGe x x = true := by
  unfold rankGe
  simp

theorem rankGe_total (x y : Nat × Nat) :
    rankGe x y = true ∨ rankGe y x = true := by
  unfold rankGe
  simp only [decide_eq_true_eq]
  omega

theorem rankGe_trans {x y z : Nat × Nat} (h1 : rankGe x y = true)
    (h2 : rankGe y z = true) : rankGe x z = true := by
  unfold rankGe at h1 h2 ⊢
  simp only [decide_eq_true_eq] at h1 h2 ⊢
  omega

theorem pairwise_insertStable {α : Type _} (le : α → α → Bool)
    (htot : ∀ a b, le a b = true ∨ le b a = true)
    (htrans : ∀ a b c, le a b = true → le b c = true → le a c = true)
    (x : α) :
    ∀ l, l.Pairwise (fun a b => le a b = true) →
      (insertStable le x l).Pairwise (fun a b => le a b = true) := by
  intro l
  induction l with
  | nil =>
    intro _
    simp [insertStable]
  | cons y l ih =>
    intro hp
    rw [List.pairwise_cons] at hp
    unfold insertStable
    split
    · rename_i hyx
      rw [List.pairwise_cons]
      refine ⟨?_, ih hp.2⟩
      intro a ha
      rw [mem_insertStable] at ha
      rcases ha with ha | ha
      · rw [ha]
        exact hyx
      · exact hp.1 a ha
    · rename_i hyx
      have hxy : le x y = true := by
        rcases htot x y with h | h
        · exact h
        · exact absurd h hyx
      rw [List.pairwise_cons]
      refine ⟨?_, List.Pairwise.cons hp.1 hp.2⟩
      intro a ha
      rcases List.mem_cons.mp ha with ha | ha
      · rw [ha]
        exact hxy
      · exact htrans x y a hxy (hp.1 a ha)

theorem pairwise_stableSort {α : Type _} (le : α → α → Bool)
    (htot : ∀ a b, le a b = true ∨ le b a = true)
    (htrans : ∀ a b c, le a b = true → le b c = true → le a c = true)
    (l : List α) :
    (stableSort le l).Pairwise (fun a b => le a b = true) := by
  unfold stableSort
  refine foldl_rec (fun acc x => insertStable le x acc)
    (fun acc => acc.Pairwise (fun a b => le a b = true)) l []
    (by simp) ?_
  intro acc x _ hacc
  exact pairwise_insertStable le htot htrans x acc hacc

theorem insertStable_perm {α : Type _} (le : α → α → Bool) (x : α) :
    ∀ l, List.Perm (insertStable le x l) (x :: l) := by
  intro l
  induction l with
  | nil => exact List.Perm.refl _
  | cons y l ih =>
    unfold insertStable
    split
    · exact (ih.cons y).trans (List.Perm.swap x y l)
    · exact List.Perm.refl _

theorem stableSort_perm {α : Type _} (le : α → α → Bool) (l : List α) :
    List.Perm (stableSort le l) l := by
  have aux : ∀ (l acc : List α),
      List.Perm (l.foldl (fun acc x => insertStable le x acc) acc)
        (acc ++ l) := by
    intro l
    induction l with
    | nil =>
      intro acc
      simp
    | cons x xs ih =>
      intro acc
      rw [List.foldl_cons]
      refine (ih _).trans ?_
      refine (List.Perm.append_right xs (insertStable_perm le x acc)).trans
        ?_
      exact List.perm_middle.symm
  simpa using aux l []

theorem score_congr {st st1 : Reg} (hcore : CoreRel st st1) (u : String) :
    get_record_rank_score st1 u = get_record_rank_score st u := by
  unfold get_record_rank_score
  cases hl : lookup? st u with
  | none =>
    have hl1 : lookup? st1 u = none := by
      cases hl1 : lookup? st1 u with
      | none => rfl
      | some r' =>
        obtain ⟨r, hr, -⟩ := CoreRel_lookup_rev hcore hl1
        rw [hl] at hr
        cases hr
    unfold lookupD
    rw [hl, hl1]
  | some r =>
    obtain ⟨r', hl', hc⟩ := CoreRel_lookup hcore hl
    unfold lookupD
    rw [hl, hl']
    simp only [Option.getD_some]
    rw [hc.1, hc.2.1]

theorem rankLe_congr {st st1 : Reg} (hcore : CoreRel st st1) :
    rankLe st1 = rankLe st := by
  funext a b
  unfold rankLe
  rw [score_congr hcore, score_congr hcore]

theorem mem_group_record {st : Reg} {k : ℤ × ℤ} {u : String}
    (h : u ∈ groupLookup (buildGroups st) k) :
    ∃ r, (u, r) ∈ st ∧ spatialEligible st (u, r) = true
      ∧ coordKey r = k := by
  rw [buildGroups_lookup] at h
  obtain ⟨⟨pu, pr⟩, hp, he⟩ := List.mem_map.mp h
  have he' : pu = u := he
  have hf := List.mem_filter.mp hp
  rw [he'] at hf
  have hb := hf.2
  simp only [Bool.and_eq_true, beq_iff_eq] at hb
  exact ⟨pr, hf.1, hb.1, hb.2⟩

theorem group_key_det {st : Reg} (hnd : (keysOf st).Nodup)
    {u : String} {k k' : ℤ × ℤ}
    (h : u ∈ groupLookup (buildGroups st) k)
    (h' : u ∈ groupLookup (buildGroups st) k') : k = k' := by
  obtain ⟨r, hm, -, hk⟩ := mem_group_record h
  obtain ⟨r', hm', -, hk'⟩ := mem_group_record h'
  have h1 := lookup?_of_mem_nodup hnd hm
  have h2 := lookup?_of_mem_nodup hnd hm'
  rw [h1] at h2
  rw [← hk, ← hk', Option.some.inj h2]

theorem group_nodup {st : Reg} (hnd : (keysOf st).Nodup) (k : ℤ × ℤ) :
    (groupLookup (buildGroups st) k).Nodup := by
  rw [buildGroups_lookup]
  unfold keysOf at hnd
  exact List.Nodup.sublist ((List.filter_sublist st).map Prod.fst) hnd

theorem spatialStep_coreRel {st : Reg} (hnd : (keysOf st).Nodup)
    {s : Reg × Nat × List String} (hcore : CoreRel st s.1)
    {g : (ℤ × ℤ) × List String} (hg2 : ∀ u ∈ g.2, u ∈ eligUids st) :
    CoreRel st (spatialStep s g).1 := by
  rcases s with ⟨st1, c, d⟩
  rcases g with ⟨k, G⟩
  simp only [spatialStep]
  split
  · exact hcore
  · rename_i hlen
    simp only
    have hslen := length_stableSort (rankLe st1) G
    have hsne : stableSort (rankLe st1) G ≠ [] := by
      intro hnil
      rw [hnil] at hslen
      simp at hslen
      omega
    have hprim : (stableSort (rankLe st1) G).headD "" ∈ G := by
      obtain ⟨x, xs, hx⟩ := List.exists_cons_of_ne_nil hsne
      have hxm : x ∈ stableSort (rankLe st1) G := by rw [hx]; simp
      have := (mem_stableSort _ _ _).mp hxm
      rw [hx]
      simpa using this
    refine foldl_rec (mergeInto ((stableSort (rankLe st1) G).headD ""))
      (fun st2 => CoreRel st st2) _ st1 hcore ?_
    intro st2 sec _ hst2
    unfold mergeInto
    apply CoreRel_dictSet hst2
    · rw [← CoreRel_keys hst2]
      exact eligUids_subset_keys st (hg2 _ hprim)
    · intro r₀ hm
      have hl0 := lookup?_of_mem_nodup hnd hm
      obtain ⟨r2, hl2, hc2⟩ := CoreRel_lookup hst2 hl0
      have hD : lookupD st2 ((stableSort (rankLe st1) G).headD "")
          = r2 := by
        unfold lookupD
        rw [hl2]
        rfl
      rw [hD]
      exact sameCore_trans hc2 (merge_sameCore r2 _)

theorem lookup?_filter_out {l : Reg} {dels : List String} {u : String}
    (h : u ∈ dels) :
    lookup? (l.filter (fun p => !(dels.contains p.1))) u = none := by
  induction l with
  | nil => rfl
  | cons p ps ih =>
    by_cases hp : p.1 = u
    · rw [List.filter_cons_of_neg (by simp [hp, h])]
      exact ih
    · by_cases hk : (dels.contains p.1) = true
      · have hk' : p.1 ∈ dels := by simpa using hk
        rw [List.filter_cons_of_neg (by simp [hk'])]
        exact ih
      · have hk' : p.1 ∉ dels := by simpa using hk
        rw [List.filter_cons_of_pos (by simp [hk'])]
        unfold lookup?
        rw [List.find?_cons_of_neg _ (by simpa using hp)]
        exact ih

theorem spatial_prim_not_deleted (st : Reg) (hnd : (keysOf st).Nodup)
    (k : ℤ × ℤ) (G : List String)
    (hGl : groupLookup (buildGroups st) k = G) (hlen : 2 ≤ G.length) :
    ∀ (gs : List ((ℤ × ℤ) × List String)),
      (∀ g ∈ gs, g.2 = groupLookup (buildGroups st) g.1
        ∧ ∀ u ∈ g.2, u ∈ eligUids st) →
      ∀ (s : Reg × Nat × List String), CoreRel st s.1 →
        (stableSort (rankLe st) G).headD "" ∉ s.2.2 →
        ((stableSort (rankLe st) G).headD ""
            ∉ (gs.foldl spatialStep s).2.2
          ∧ CoreRel st (gs.foldl spatialStep s).1) := by
  intro gs
  induction gs with
  | nil =>
    intro _ s hc hp
    exact ⟨hp, hc⟩
  | cons g rest ih =>
    intro hgs s hcore hprim
    rw [List.foldl_cons]
    refine ih (fun g' hg' => hgs g' (by simp [hg'])) _
      (spatialStep_coreRel hnd hcore (hgs g (by simp)).2) ?_
    rcases s with ⟨st1, c, d⟩
    rcases g with ⟨k', G'⟩
    simp only [spatialStep]
    split
    · exact hprim
    · rename_i hlen'
      simp only
      intro hmem
      rcases List.mem_append.mp hmem with hmem | hmem
      · exact hprim hmem
      · have hrle : rankLe st1 = rankLe st := rankLe_congr hcore
        rw [hrle] at hmem
        have hG' : G' = groupLookup (buildGroups st) k' :=
          (hgs (k', G') (by simp)).1
        have hpG' : (stableSort (rankLe st) G).headD "" ∈ G' :=
          (mem_stableSort _ _ _).mp (List.mem_of_mem_tail hmem)
        have hslen := length_stableSort (rankLe st) G
        have hsne : stableSort (rankLe st) G ≠ [] := by
          intro hnil
          rw [hnil] at hslen
          simp at hslen
          omega
        have hpG : (stableSort (rankLe st) G).headD "" ∈ G := by
          obtain ⟨x, xs, hx⟩ := List.exists_cons_of_ne_nil hsne
          have hxm : x ∈ stableSort (rankLe st) G := by rw [hx]; simp
          have := (mem_stableSort _ _ _).mp hxm
          rw [hx]
          simpa using this
        have hkk : k' = k := by
          rw [hG'] at hpG'
          have hpG2 : (stableSort (rankLe st) G).headD ""
              ∈ groupLookup (buildGroups st) k := by
            rw [hGl]
            exact hpG
          exact group_key_det hnd hpG' hpG2
        subst hkk
        have hGG : G' = G := by rw [hG', hGl]
        subst hGG
        have hperm := stableSort_perm (rankLe st) G'
        have hsnd : (stableSort (rankLe st) G').Nodup :=
          hperm.nodup_iff.mpr (hGl ▸ group_nodup hnd k')
        obtain ⟨x, xs, hx⟩ := List.exists_cons_of_ne_nil hsne
        rw [hx] at hmem hsnd
        simp only [List.headD_cons, List.tail_cons] at hmem
        rw [List.nodup_cons] at hsnd
        exact hsnd.1 hmem

theorem spatial_group_deleted_prim (st : Reg) (hnd : (keysOf st).Nodup)
    (k : ℤ × ℤ) (G : List String)
    (hGl : groupLookup (buildGroups st) k = G) (hlen : 2 ≤ G.length) :
    ∀ (gs : List ((ℤ × ℤ) × List String)),
      (∀ g ∈ gs, g.2 = groupLookup (buildGroups st) g.1
        ∧ ∀ u ∈ g.2, u ∈ eligUids st) →
      ∀ (s : Reg × Nat × List String), CoreRel st s.1 →
        (k, G) ∈ gs →
        ∀ u ∈ G, u ≠ (stableSort (rankLe st) G).headD "" →
          u ∈ (gs.foldl spatialStep s).2.2 := by
  intro gs
  induction gs with
  | nil =>
    intro _ s _ hmem
    simp at hmem
  | cons g rest ih =>
    intro hgs s hcore hmem u huG hne
    rw [List.foldl_cons]
    rcases List.mem_cons.mp hmem with hg | hg
    · rw [← hg]
      rcases s with ⟨st1, c, d⟩
      have hrle : rankLe st1 = rankLe st := rankLe_congr hcore
      have hstep : spatialStep (st1, c, d) (k, G)
          = ((stableSort (rankLe st) G).tail.foldl
              (mergeInto ((stableSort (rankLe st) G).headD "")) st1,
            c + (stableSort (rankLe st) G).tail.length,
            d ++ (stableSort (rankLe st) G).tail) := by
        simp only [spatialStep]
        rw [if_neg (by omega), hrle]
      rw [hstep]
      apply spatial_dels_mono rest
      simp only
      have hus : u ∈ stableSort (rankLe st) G :=
        (mem_stableSort _ _ _).mpr huG
      have hslen := length_stableSort (rankLe st) G
      have hsne : stableSort (rankLe st) G ≠ [] := by
        intro hnil
        rw [hnil] at hslen
        simp at hslen
        omega
      obtain ⟨x, xs, hx⟩ := List.exists_cons_of_ne_nil hsne
      rw [hx] at hus hne ⊢
      simp only [List.headD_cons] at hne
      rcases List.mem_cons.mp hus with hus | hus
      · exact absurd hus hne
      · exact List.mem_append.mpr (Or.inr hus)
    · exact ih (fun g' hg' => hgs g' (by simp [hg'])) _
        (spatialStep_coreRel hnd hcore (hgs g (by simp)).2) hg u huG hne

theorem spatial_groups_resolved (st : Reg) (hnd : (keysOf st).Nodup)
    {k : ℤ × ℤ} {G : List String} (hm : (k, G) ∈ buildGroups st)
    (hlen : 2 ≤ G.length) :
    ∃ prim ∈ G,
      (∀ u ∈ G, rankGe (get_record_rank_score st prim)
          (get_record_rank_score st u) = true)
      ∧ (∀ u ∈ G, u ≠ prim →
          lookup? (deduplicate_spatial st).1 u = none)
      ∧ lookup? (deduplicate_spatial st).1 prim ≠ none := by
  have hGl : groupLookup (buildGroups st) k = G :=
    mem_buildGroups_eq_lookup st hm
  have hgs : ∀ g ∈ buildGroups st,
      g.2 = groupLookup (buildGroups st) g.1
        ∧ ∀ u ∈ g.2, u ∈ eligUids st := by
    intro g hg
    have h1 : groupLookup (buildGroups st) g.1 = g.2 := by
      rcases g with ⟨k', G'⟩
      exact mem_buildGroups_eq_lookup st hg
    refine ⟨h1.symm, ?_⟩
    intro u hu
    exact mem_group_sub_elig st g.1 (h1.symm ▸ hu)
  have hslen := length_stableSort (rankLe st) G
  have hsne : stableSort (rankLe st) G ≠ [] := by
    intro hnil
    rw [hnil] at hslen
    simp at hslen
    omega
  obtain ⟨x, xs, hx⟩ := List.exists_cons_of_ne_nil hsne
  have hxh : (stableSort (rankLe st) G).headD "" = x := by
    rw [hx]
    rfl
  have hxG : x ∈ G := by
    have hxm : x ∈ stableSort (rankLe st) G := by rw [hx]; simp
    exact (mem_stableSort _ _ _).mp hxm
  have hA := spatial_prim_not_deleted st hnd k G hGl hlen
    (buildGroups st) hgs (st, 0, []) (CoreRel_refl st)
    (List.not_mem_nil _)
  refine ⟨x, hxG, ?_, ?_, ?_⟩
  · intro u huG
    have hpw := pairwise_stableSort (rankLe st)
      (fun a b => rankGe_total _ _)
      (fun a b c h1 h2 => rankGe_trans h1 h2) G
    rw [hx, List.pairwise_cons] at hpw
    have hus : u ∈ stableSort (rankLe st) G :=
      (mem_stableSort _ _ _).mpr huG
    rw [hx] at hus
    rcases List.mem_cons.mp hus with hus | hus
    · rw [hus]
      exact rankGe_refl _
    · exact hpw.1 u hus
  · intro u huG hne
    have hdel := spatial_group_deleted_prim st hnd k G hGl hlen
      (buildGroups st) hgs (st, 0, []) (CoreRel_refl st) hm u huG
      (by rw [hxh]; exact hne)
    unfold deduplicate_spatial
    simp only
    exact lookup?_filter_out hdel
  · rw [← hxh] at hxG ⊢
    have hxG2 : (stableSort (rankLe st) G).headD ""
        ∈ groupLookup (buildGroups st) k := by
      rw [hGl]
      exact hxG
    obtain ⟨rp, hmp, -, -⟩ := mem_group_record hxG2
    have hlp : lookup? st ((stableSort (rankLe st) G).headD "")
        = some rp := lookup?_of_mem_nodup hnd hmp
    obtain ⟨rp', hlp', -⟩ := CoreRel_lookup hA.2 hlp
    unfold deduplicate_spatial
    simp only
    rw [lookup?_filter]
    · rw [hlp']
      simp
    · intro r' _
      show (!(List.foldl spatialStep (st, 0, [])
          (buildGroups st)).2.2.contains
        ((stableSort (rankLe st) G).headD "")) = true
      cases hcc : (List.foldl spatialStep (st, 0, [])
          (buildGroups st)).2.2.contains
            ((stableSort (rankLe st) G).headD "") with
      | false => rfl
      | true => exact absurd (by simpa using hcc) hA.1

/-- Claim C4 (amended): the spatial pass groups exactly the entities with
positive rank score (accuracy HIGH, MEDIUM or LOW) and both coordinates
non-zero, keyed by the 5-decimal rounding; entities outside this class
(APPROXIMATE/Pending rank 0, or a zero coordinate) are retained with
their record untouched; the survivors are pairwise separated; and every
group of size ≥ 2 has a rank-maximal primary (by accuracy tier then name
length) that survives while every other member is deleted. -/
theorem C4_spatial_grouping_amended (st : Reg)
    (hnd : (keysOf st).Nodup) :
    (∀ k, groupLookup (buildGroups st) k
        = (st.filter (fun p => eligRec p.2 && (coordKey p.2 == k))).map
          Prod.fst)
    ∧ (∀ u r, lookup? st u = some r → eligRec r = false →
        lookup? (deduplicate_spatial st).1 u = some r)
    ∧ SpatialSeparated (deduplicate_spatial st).1
    ∧ ∀ k G, (k, G) ∈ buildGroups st → 2 ≤ G.length →
        ∃ prim ∈ G,
          (∀ u ∈ G, rankGe (get_record_rank_score st prim)
              (get_record_rank_score st u) = true)
          ∧ (∀ u ∈ G, u ≠ prim →
              lookup? (deduplicate_spatial st).1 u = none)
          ∧ lookup? (deduplicate_spatial st).1 prim ≠ none := by
  refine ⟨?_, ?_, spatial_separated st hnd, ?_⟩
  · intro k
    rw [buildGroups_lookup]
    congr 1
    apply List.filter_congr
    intro p hp
    rw [spatialEligible_eq_eligRec hnd hp]
  · intro u r hl hne
    exact spatial_untouched st hnd hl hne
  · intro k G hm hlen
    exact spatial_groups_resolved st hnd hm hlen

/-- Witness for the amended C4 at a concrete registry. -/
theorem C4_spatial_grouping_amended_witness :
    (keysOf c4wst).Nodup
      ∧ ((∀ k, groupLookup (buildGroups c4wst) k
            = (c4wst.filter
                (fun p => eligRec p.2 && (coordKey p.2 == k))).map
              Prod.fst)
        ∧ (∀ u r, lookup? c4wst u = some r → eligRec r = false →
            lookup? (deduplicate_spatial c4wst).1 u = some r)
        ∧ SpatialSeparated (deduplicate_spatial c4wst).1
        ∧ ∀ k G, (k, G) ∈ buildGroups c4wst → 2 ≤ G.length →
            ∃ prim ∈ G,
              (∀ u ∈ G, rankGe (get_record_rank_score c4wst prim)
                  (get_record_rank_score c4wst u) = true)
              ∧ (∀ u ∈ G, u ≠ prim →
                  lookup? (deduplicate_spatial c4wst).1 u = none)
              ∧ lookup? (deduplicate_spatial c4wst).1 prim ≠ none) :=
  ⟨by decide, C4_spatial_grouping_amended c4wst (by decide)⟩

/-- Claim C7: running `deduplicate_data` (spatial pass then text pass) a
second time immediately after a first run performs zero merges in both
passes and leaves the registry unchanged — one run reaches a fixed point.
The hypothesis is the registry representation invariant (a Python dict
has no duplicate keys). -/
theorem C7_dedup_idempotent (ratio : String → String → ℚ) (st : Reg)
    (hnd : (keysOf st).Nodup) :
    deduplicate_data ratio (deduplicate_data ratio st).1
      = ((deduplicate_data ratio st).1, 0, 0) := by
  have hnd1 : (keysOf (deduplicate_spatial st).1).Nodup :=
    spatial_out_nodup st hnd
  have hsep1 : SpatialSeparated (deduplicate_spatial st).1 :=
    spatial_separated st hnd
  have hnd2 : (keysOf (deduplicate_with_text ratio
      (deduplicate_spatial st).1).1).Nodup :=
    text_out_nodup ratio hnd1
  have hsep2 : SpatialSeparated (deduplicate_with_text ratio
      (deduplicate_spatial st).1).1 :=
    text_preserves_spatial ratio hnd1 hsep1
  have htsep2 : TextSeparated ratio (deduplicate_with_text ratio
      (deduplicate_spatial st).1).1 :=
    text_out_sep ratio hnd1
  have hfst : (deduplicate_data ratio st).1
      = (deduplicate_with_text ratio (deduplicate_spatial st).1).1 := rfl
  rw [hfst]
  unfold deduplicate_data
  simp only
  rw [spatial_noop _ hnd2 hsep2]
  dsimp only
  rw [text_noop ratio _ hnd2 htsep2]

/-- Witness for C7 at a concrete one-entry registry. -/
theorem C7_dedup_idempotent_witness :
    (keysOf c7st).Nodup
      ∧ deduplicate_data (fun _ _ => 0)
          (deduplicate_data (fun _ _ => 0) c7st).1
        = ((deduplicate_data (fun _ _ => 0) c7st).1, 0, 0) :=
  ⟨by decide, C7_dedup_idempotent (fun _ _ => 0) c7st (by decide)⟩

end MergeData
